import Mathlib

/-!
Verification of the extension-based file organizer (src/Python.py).

The script walks a base directory with `os.walk`, classifies every
non-hidden file by the extension part of `os.path.splitext`, and routes it
into a bucket directory `Extension_<EXT>` (EXT uppercased), resolving name
collisions by size comparison, SHA-1 hashing, `_<N>`-suffixed renaming, and
a quarantine tree `Extension_EXISTING/Extension_<EXT>`.

Shallow embedding used here:

* A filesystem is a finite list of (path, content) pairs, where a path is
  the list of name components below the base directory.  Directories are
  implicit: a directory exists iff it is a proper prefix of some file path
  (`os.makedirs` therefore needs no explicit model; every directory the
  script creates receives a file in the same iteration or already held one).
* `os.path.exists` is `pathExists` (true on files and on implicit
  directories).  Reading a file is `lookupF`; `shutil.move` is
  remove-then-insert; `os.remove` is `removeF`.
* SHA-1 is modeled as an injective digest, i.e. as the file content itself:
  the script relies on hash equality exactly as a byte-for-byte content
  comparison.  `os.path.getsize` is content length.
* I/O failure is modeled by fault injection: `errs` lists the paths whose
  `open`/read raises `IOError`.  The script has no try/except, so the model
  propagates errors through `Except`, aborting the run where Python would.
* `os.walk(base, topdown=True)` with the line
  `dirs[:] = [d for d in dirs if not d.startswith('Extension_')]`
  never descends into any directory whose name starts with `Extension_`.
  During a run the script only ever (a) removes the file currently being
  processed and (b) creates files inside `Extension_*` directories under
  the base; `os.walk` captures each directory listing before those files
  are processed, and directories created mid-run under the base are not in
  the already-captured listing (and would be pruned by name anyway).  Hence
  the sequence of files the loop body sees is exactly the initial files
  whose directory path contains no `Extension_*` component, in directory
  enumeration order.  The spec guarantees no particular enumeration order,
  so the entry order of the list stands for it (`walkList`).
* `os.walk` passes directory-scan errors to its `onerror` argument, which
  the script leaves at the default `None`: the error is swallowed and the
  walk yields nothing.  An invalid or inaccessible base directory is
  therefore the `baseOk = false` case, producing an empty walk.
* Python string primitives used by the script are given direct structural
  models over `String.data` (ASCII case mapping, as in all filenames the
  script is written for): `strStartsWith` for `str.startswith`, `strUpper`
  / `strLower` for `str.upper` / `str.lower`, `splitext` for
  `os.path.splitext` (CPython `genericpath._splitext` restricted to a bare
  filename: split at the last dot unless every character before it is a
  dot), and `Nat.repr` for the decimal formatting in the f-string
  `f"{base_name}_{count}.{ext.lower()}"`.
-/

namespace OrgSpec

/-- A path below the base directory, as a list of name components. -/
abbrev Path := List String

/-- A filesystem: finitely many files, each a path with its byte content
(contents as `String`). -/
abbrev FS := List (Path × String)

/-- Python exceptions the script can raise (it catches none of them).
`fuelOut` is an artifact of the fuel-bounded model of the `while True`
scan loop; it is proven unreachable at the fuel bound the model uses. -/
inductive PyErr where
  | fileNotFound (p : Path)
  | notAFile (p : Path)
  | ioError (p : Path)
  | fuelOut
deriving DecidableEq, Repr

/-- Observable events of a run: one constructor per `print` of the script
(lines 34, 71, 86, 92, 102/111, 118, 123), plus `hashed p` instrumenting
each call of `hash_file` (lines 66, 76, 115). -/
inductive Ev where
  | started
  | hashed (p : Path)
  | moved (src dest : Path)
  | renamedMoved (src dest : Path)
  | dupRemoved (src : Path)
  | quarMoved (src dest : Path)
  | quarDupRemoved (src : Path)
  | doneMsg
deriving DecidableEq, Repr

/-- The terminal classification of one file by the loop body.  For the two
removal cases the constructor records which already-placed file the removed
file was hash-matched against (the script has it in hand as `dest_file`
resp. `numbered_file`). -/
inductive Action where
  | skippedHidden
  | skippedNoExt
  | movedTo (dest : Path)
  | renamedTo (dest : Path)
  | removedDupOf (keeper : Path)
  | quarMovedTo (dest : Path)
  | removedQuarDupOf (keeper : Path)
deriving DecidableEq, Repr

/-- Content of the file at `p`, if a file is there (`open(p).read()`). -/
def lookupF (fs : FS) (p : Path) : Option String :=
  (fs.find? (fun e => e.1 == p)).map (fun e => e.2)

/-- Model of `os.path.exists p`: true if `p` is a file or an (implicit) directory,
i.e. a prefix of some file path. -/
def pathExists (fs : FS) (p : Path) : Bool :=
  fs.any (fun e => p.isPrefixOf e.1)

/-- Model of `os.remove p` (also the removal half of `shutil.move`). -/
def removeF (fs : FS) (p : Path) : FS :=
  fs.filter (fun e => !(e.1 == p))

/-- Model of `str.startswith`. -/
def strStartsWith (s pre : String) : Bool :=
  pre.data.isPrefixOf s.data

/-- Model of `str.upper` (ASCII case mapping). -/
def strUpper (s : String) : String :=
  ⟨s.data.map Char.toUpper⟩

/-- Model of `str.lower` (ASCII case mapping). -/
def strLower (s : String) : String :=
  ⟨s.data.map Char.toLower⟩

/-- Model of the slice `s[n:]`. -/
def strDrop (s : String) (n : Nat) : String :=
  ⟨s.data.drop n⟩

/-- Index of the last `'.'` in a character list, if any. -/
def lastDotIdx : List Char → Option Nat
  | [] => none
  | c :: cs =>
    match lastDotIdx cs with
    | some i => some (i + 1)
    | none => if c = '.' then some 0 else none

/-- Model of `os.path.splitext` on a bare filename (CPython `genericpath._splitext`
with no directory separator present): split at the last dot, except that a
name whose characters before the last dot are all dots (leading-dot names
such as `.bashrc`, `..`) gets an empty extension. -/
def splitext (s : String) : String × String :=
  match lastDotIdx s.data with
  | none => (s, "")
  | some i =>
    if (s.data.take i).all (fun c => c = '.') then (s, "")
    else (⟨s.data.take i⟩, ⟨s.data.drop i⟩)

/-- Lines 48-50: `ext = name_parts[1][1:].upper() if name_parts[1] else
'UNKNOWN'`. -/
def extOf (filename : String) : String :=
  let np := splitext filename
  if np.2 ≠ "" then strUpper (strDrop np.2 1) else "UNKNOWN"

/-- Line 81/107: the disambiguated filename
`f"{base_name}_{count}.{ext.lower()}"` (`ext` is the uppercased extension,
so the suffix uses its lowercase form). -/
def slotName (baseName extU : String) (n : Nat) : String :=
  baseName ++ "_" ++ Nat.repr n ++ "." ++ strLower extU

/-- Lines 80-82: the `while os.path.exists(...): count += 1` search for the
first free `_<N>` slot in `dir`.  The loop is modeled with fuel; the run
always supplies `fs.length + 1`, which is proven sufficient
(`findFreeGo_free_of_window`): among `fs.length + 1` distinct candidate
names at least one is unoccupied. -/
def findFreeGo (fs : FS) (dir : Path) (bn extU : String) : Nat → Nat → Nat
  | 0, n => n
  | fuel + 1, n =>
    if pathExists fs (dir ++ [slotName bn extU n]) then
      findFreeGo fs dir bn extU fuel (n + 1)
    else n

/-- The count chosen by lines 80-82, starting from `count = 1`. -/
def findFree (fs : FS) (dir : Path) (bn extU : String) : Nat :=
  findFreeGo fs dir bn extU (fs.length + 1) 1

/-- Lines 105-121: the `while True` scan over quarantine slots
`{base_name}_{count}.{ext.lower()}` for `count = 1, 2, ...`: an unoccupied
slot receives the file (`shutil.move`); an occupied slot is hashed and, on
a hash match, the file is removed as an already-quarantined duplicate;
otherwise the scan moves to the next count.  `content` is both the content
moved and the hash `file_hash` compared (SHA-1 is modeled injectively).
Fuel-bounded; `fuelOut` is unreachable at fuel `fs.length + 1`. -/
def quarScan (errs : List Path) (fs : FS) (fullPath : Path) (content : String)
    (existingDir : Path) (bn extU : String) : Nat → Nat → Except PyErr (FS × Action × List Ev)
  | 0, _ => .error .fuelOut
  | fuel + 1, count =>
    let numbered := existingDir ++ [slotName bn extU count]
    if pathExists fs numbered then
      match lookupF fs numbered with
      | none => .error (.notAFile numbered)
      | some c =>
        if numbered ∈ errs then .error (.ioError numbered)
        else if content == c then
          .ok (removeF fs fullPath, .removedQuarDupOf numbered,
            [.hashed numbered, .quarDupRemoved fullPath])
        else
          match quarScan errs fs fullPath content existingDir bn extU fuel (count + 1) with
          | .ok (fs2, a, evs) => .ok (fs2, a, .hashed numbered :: evs)
          | .error e => .error e
    else
      .ok (removeF fs fullPath ++ [(numbered, content)], .quarMovedTo numbered,
        [.quarMoved fullPath numbered])

/-- Lines 40-121: the loop body for one directory entry `filename` found in
directory `root`.  Mirrors the source order: hidden check (42), extension
extraction and no-extension skip (48-54), destination paths (57-59),
`os.path.getsize` then `hash_file` on the file itself (65-66), the
no-conflict move (69-72), `getsize`/`hash_file` on the bucket occupant
(75-76), the size-mismatch rename (79-87), the exact-duplicate removal
(90-93), and the quarantine cases (96-121). -/
def processFile (errs : List Path) (fs : FS) (root : Path) (filename : String) :
    Except PyErr (FS × Action × List Ev) :=
  if strStartsWith filename "." then .ok (fs, .skippedHidden, [])
  else
    let fullPath := root ++ [filename]
    let baseName := (splitext filename).1
    let ext := extOf filename
    if ext == "UNKNOWN" then .ok (fs, .skippedNoExt, [])
    else
      let destDir : Path := ["Extension_" ++ ext]
      let destFile : Path := destDir ++ [filename]
      let existingDir : Path := ["Extension_EXISTING", "Extension_" ++ ext]
      match lookupF fs fullPath with
      | none => .error (.fileNotFound fullPath)
      | some content =>
        if fullPath ∈ errs then .error (.ioError fullPath)
        else
          if !(pathExists fs destFile) then
            .ok (removeF fs fullPath ++ [(destFile, content)], .movedTo destFile,
              [.hashed fullPath, .moved fullPath destFile])
          else
            match lookupF fs destFile with
            | none => .error (.notAFile destFile)
            | some existingContent =>
              if destFile ∈ errs then .error (.ioError destFile)
              else
                if content.length ≠ existingContent.length then
                  let newDest := destDir ++ [slotName baseName ext (findFree fs destDir baseName ext)]
                  .ok (removeF fs fullPath ++ [(newDest, content)], .renamedTo newDest,
                    [.hashed fullPath, .hashed destFile, .renamedMoved fullPath newDest])
                else if content == existingContent then
                  .ok (removeF fs fullPath, .removedDupOf destFile,
                    [.hashed fullPath, .hashed destFile, .dupRemoved fullPath])
                else
                  if !(pathExists fs (existingDir ++ [filename])) then
                    .ok (removeF fs fullPath ++ [(existingDir ++ [filename], content)],
                      .quarMovedTo (existingDir ++ [filename]),
                      [.hashed fullPath, .hashed destFile,
                        .quarMoved fullPath (existingDir ++ [filename])])
                  else
                    match quarScan errs fs fullPath content existingDir baseName ext
                        (fs.length + 1) 1 with
                    | .ok (fs2, a, evs) =>
                      .ok (fs2, a, .hashed fullPath :: .hashed destFile :: evs)
                    | .error e => .error e

/-- The loop body applied to a walk entry given as a full path. -/
def processPath (errs : List Path) (fs : FS) (p : Path) :
    Except PyErr (FS × Action × List Ev) :=
  processFile errs fs p.dropLast (p.getLastD "")

/-- The walk loop over the listed entries, threading the filesystem.  An
uncaught exception stops everything (the script has no handler): files
after the failing one are never visited, and the state at the failure is
returned with the error. -/
def runFiles (errs : List Path) : List Path → FS → FS × List Ev × Option PyErr
  | [], fs => (fs, [], none)
  | p :: ps, fs =>
    match processPath errs fs p with
    | .error e => (fs, [], some e)
    | .ok (fs1, _, evs) =>
      let r := runFiles errs ps fs1
      (r.1, evs ++ r.2.1, r.2.2)

/-- True iff no component of `p` starts with `Extension_` (the walk never
enters such directories, line 38). -/
def extFreeDirs (p : Path) : Bool :=
  p.all (fun d => !(strStartsWith d "Extension_"))

/-- The files the walk visits: exactly the initial files whose directory
path contains no `Extension_*` component (see the header for why the live
mutation does not change this set), in enumeration order. -/
def walkList (fs : FS) : List Path :=
  (fs.filter (fun e => extFreeDirs e.1.dropLast)).map (fun e => e.1)

/-- Lines 14-123, `organize_by_extension`: the whole run.  `baseOk` is
whether `os.scandir(base_dir)` succeeds; if not, `os.walk` hands the error
to its default `onerror=None` and yields nothing.  Returns the final
filesystem, the event stream, and the uncaught exception if one occurred
(in which case the final `print` of line 123 is not reached). -/
def organize_by_extension (errs : List Path) (baseOk : Bool) (fs : FS) :
    FS × List Ev × Option PyErr :=
  let entries := if baseOk then walkList fs else []
  let r := runFiles errs entries fs
  (r.1, Ev.started :: r.2.1 ++ (match r.2.2 with | none => [Ev.doneMsg] | some _ => []), r.2.2)


/-! ### Decimal representation: `Nat.repr` is injective

The disambiguation counter appears in filenames through `Nat.repr`; the
termination and minimality arguments about the slot scans need distinct
counters to give distinct filenames. -/

/-- Decimal digit list of `n`, most significant first. -/
def repDigits (n : Nat) : List Char :=
  if n < 10 then [Nat.digitChar n]
  else repDigits (n / 10) ++ [Nat.digitChar (n % 10)]
termination_by n
decreasing_by exact Nat.div_lt_self (by omega) (by omega)

theorem toDigitsCore_eq_repDigits :
    ∀ (fuel n : Nat) (ds : List Char), n < 10 ^ (fuel + 1) →
      Nat.toDigitsCore 10 (fuel + 1) n ds = repDigits n ++ ds := by
  intro fuel
  induction fuel with
  | zero =>
    intro n ds h
    have h10 : n < 10 := by simpa using h
    have hdiv : n / 10 = 0 := Nat.div_eq_of_lt h10
    have hmod : n % 10 = n := Nat.mod_eq_of_lt h10
    simp [Nat.toDigitsCore, hdiv, hmod, repDigits, h10]
  | succ fuel ih =>
    intro n ds h
    by_cases h10 : n < 10
    · have hdiv : n / 10 = 0 := Nat.div_eq_of_lt h10
      have hmod : n % 10 = n := Nat.mod_eq_of_lt h10
      simp [Nat.toDigitsCore, hdiv, hmod, repDigits, h10]
    · have hdiv : n / 10 ≠ 0 := by
        intro h0
        exact h10 (by omega)
      have hlt : n / 10 < 10 ^ (fuel + 1) := by
        rw [Nat.div_lt_iff_lt_mul (by norm_num)]
        calc n < 10 ^ (fuel + 1 + 1) := h
          _ = 10 ^ (fuel + 1) * 10 := by ring
      have step : Nat.toDigitsCore 10 (fuel + 1 + 1) n ds =
          Nat.toDigitsCore 10 (fuel + 1) (n / 10) (Nat.digitChar (n % 10) :: ds) := by
        simp [Nat.toDigitsCore, hdiv]
      rw [step, ih (n / 10) (Nat.digitChar (n % 10) :: ds) hlt]
      rw [show repDigits n = repDigits (n / 10) ++ [Nat.digitChar (n % 10)] by
        rw [repDigits]; simp [h10]]
      simp

theorem repr_eq_repDigits (n : Nat) : Nat.repr n = ⟨repDigits n⟩ := by
  have hn : n < 10 ^ (n + 1) := by
    calc n < 2 ^ n := Nat.lt_two_pow n
      _ ≤ 10 ^ n := Nat.pow_le_pow_left (by omega) n
      _ ≤ 10 ^ (n + 1) := Nat.pow_le_pow_right (by omega) (by omega)
  show (Nat.toDigits 10 n).asString = _
  rw [Nat.toDigits, toDigitsCore_eq_repDigits n n [] hn]
  simp [List.asString]

/-- Numeric value of a decimal digit character. -/
def charVal (c : Char) : Nat := c.toNat - 48

/-- Value of a most-significant-first decimal digit list. -/
def valOfDigits (l : List Char) : Nat :=
  l.foldl (fun a c => 10 * a + charVal c) 0

theorem charVal_digitChar : ∀ n : Nat, n < 10 → charVal (Nat.digitChar n) = n := by
  decide

theorem valOfDigits_append_singleton (l : List Char) (c : Char) :
    valOfDigits (l ++ [c]) = 10 * valOfDigits l + charVal c := by
  simp [valOfDigits, List.foldl_append]

theorem valOfDigits_repDigits : ∀ n : Nat, valOfDigits (repDigits n) = n := by
  intro n
  induction n using Nat.strong_induction_on with
  | _ n ih =>
    by_cases h10 : n < 10
    · rw [repDigits]
      simp only [h10, if_true]
      simp [valOfDigits, charVal_digitChar n h10]
    · rw [repDigits]
      simp only [h10, if_false]
      rw [valOfDigits_append_singleton,
        ih (n / 10) (Nat.div_lt_self (by omega) (by omega)),
        charVal_digitChar (n % 10) (Nat.mod_lt n (by omega))]
      omega

theorem natRepr_injective : Function.Injective Nat.repr := by
  intro a b h
  rw [repr_eq_repDigits, repr_eq_repDigits] at h
  have hdata : repDigits a = repDigits b := congrArg String.data h
  have := congrArg valOfDigits hdata
  rwa [valOfDigits_repDigits, valOfDigits_repDigits] at this


/-! ### Distinctness of disambiguation slot names, and the pigeonhole bound

The two `while` loops probe the paths `dir ++ [slotName bn extU n]` for
`n = start, start+1, ...`.  Distinct `n` give distinct single-component
names, and a path can make at most one such candidate exist (as itself or
as an extension of it), so among `fs.length + 1` consecutive candidates at
least one does not exist. -/

theorem strData_append (s t : String) : (s ++ t).data = s.data ++ t.data := rfl

theorem slotName_injective (bn extU : String) : Function.Injective (slotName bn extU) := by
  intro m n h
  apply natRepr_injective
  have hd := congrArg String.data h
  simp only [slotName, strData_append] at hd
  have h1 := List.append_cancel_right hd
  have h2 := List.append_cancel_right h1
  have h3 := List.append_cancel_left h2
  exact String.ext h3

theorem exists_unoccupied (fs : FS) (dir : Path) (bn extU : String) (start : Nat) :
    ∃ n, start ≤ n ∧ n < start + fs.length + 1 ∧
      pathExists fs (dir ++ [slotName bn extU n]) = false := by
  by_contra hcon
  push_neg at hcon
  have occ : ∀ i : Fin (fs.length + 1),
      ∃ j : Fin fs.length,
        (dir ++ [slotName bn extU (start + i.val)]).isPrefixOf (fs.get j).1 = true := by
    intro i
    have h1 := hcon (start + i.val) (by omega) (by omega)
    have h2 : pathExists fs (dir ++ [slotName bn extU (start + i.val)]) = true := by
      cases hb : pathExists fs (dir ++ [slotName bn extU (start + i.val)]) with
      | false => exact absurd hb h1
      | true => rfl
    unfold pathExists at h2
    rw [List.any_eq_true] at h2
    obtain ⟨e, he, hp⟩ := h2
    obtain ⟨j, hj⟩ := List.mem_iff_get.mp he
    exact ⟨j, by rw [hj]; exact hp⟩
  have hG : ∀ i, (dir ++ [slotName bn extU (start + i.val)]).isPrefixOf
      (fs.get ((occ i).choose)).1 = true :=
    fun i => (occ i).choose_spec
  have hinj : Function.Injective (fun i => (occ i).choose) := by
    intro i j hij
    have h1 := hG i
    have h2 := hG j
    simp only at hij
    rw [hij] at h1
    rw [List.isPrefixOf_iff_prefix] at h1 h2
    have hle : (dir ++ [slotName bn extU (start + i.val)]).length ≤
        (dir ++ [slotName bn extU (start + j.val)]).length := by simp
    have hpre := List.prefix_of_prefix_length_le h1 h2 hle
    have heq := List.IsPrefix.eq_of_length hpre (by simp)
    have hlast := List.append_cancel_left heq
    have hslot : slotName bn extU (start + i.val) = slotName bn extU (start + j.val) := by
      simpa using hlast
    have := slotName_injective bn extU hslot
    exact Fin.val_injective (by omega)
  have hcard := Fintype.card_le_of_injective _ hinj
  simp at hcard

theorem findFreeGo_le (fs : FS) (dir : Path) (bn extU : String) :
    ∀ (fuel s : Nat), s ≤ findFreeGo fs dir bn extU fuel s := by
  intro fuel
  induction fuel with
  | zero => intro s; simp [findFreeGo]
  | succ fuel ih =>
    intro s
    rw [findFreeGo]
    split
    · exact le_trans (by omega) (ih (s + 1))
    · exact le_refl s

theorem findFreeGo_min (fs : FS) (dir : Path) (bn extU : String) :
    ∀ (fuel s m : Nat), s ≤ m → m < findFreeGo fs dir bn extU fuel s →
      pathExists fs (dir ++ [slotName bn extU m]) = true := by
  intro fuel
  induction fuel with
  | zero =>
    intro s m h1 h2
    simp [findFreeGo] at h2
    omega
  | succ fuel ih =>
    intro s m h1 h2
    rw [findFreeGo] at h2
    by_cases hocc : pathExists fs (dir ++ [slotName bn extU s]) = true
    · rw [if_pos hocc] at h2
      rcases Nat.eq_or_lt_of_le h1 with heq | hlt
      · rwa [← heq]
      · exact ih (s + 1) m hlt h2
    · rw [if_neg hocc] at h2
      omega

theorem findFreeGo_free (fs : FS) (dir : Path) (bn extU : String) :
    ∀ (fuel s : Nat),
      (∃ n, s ≤ n ∧ n < s + fuel ∧ pathExists fs (dir ++ [slotName bn extU n]) = false) →
      pathExists fs (dir ++ [slotName bn extU (findFreeGo fs dir bn extU fuel s)]) = false := by
  intro fuel
  induction fuel with
  | zero =>
    intro s h
    obtain ⟨n, h1, h2, _⟩ := h
    omega
  | succ fuel ih =>
    intro s h
    rw [findFreeGo]
    by_cases hocc : pathExists fs (dir ++ [slotName bn extU s]) = true
    · rw [if_pos hocc]
      obtain ⟨n, h1, h2, h3⟩ := h
      have hns : n ≠ s := by
        intro hx
        rw [hx] at h3
        rw [h3] at hocc
        cases hocc
      exact ih (s + 1) ⟨n, by omega, by omega, h3⟩
    · rw [if_neg hocc]
      cases hb : pathExists fs (dir ++ [slotName bn extU s]) with
      | false => rfl
      | true => exact absurd hb hocc

theorem findFree_spec (fs : FS) (dir : Path) (bn extU : String) :
    1 ≤ findFree fs dir bn extU ∧
    pathExists fs (dir ++ [slotName bn extU (findFree fs dir bn extU)]) = false ∧
    ∀ m, 1 ≤ m → m < findFree fs dir bn extU →
      pathExists fs (dir ++ [slotName bn extU m]) = true := by
  refine ⟨findFreeGo_le fs dir bn extU (fs.length + 1) 1, ?_,
    fun m h1 h2 => findFreeGo_min fs dir bn extU (fs.length + 1) 1 m h1 h2⟩
  obtain ⟨n, h1, h2, h3⟩ := exists_unoccupied fs dir bn extU 1
  exact findFreeGo_free fs dir bn extU (fs.length + 1) 1 ⟨n, h1, by omega, h3⟩


/-! ### Behavior of the quarantine slot scan (lines 105-121) -/

/-- True iff a run result is the model artifact for a non-terminating loop.
Every other result is a terminated loop: a terminal action or a genuine
Python exception. -/
def isFuelOut : Except PyErr (FS × Action × List Ev) → Bool
  | .error .fuelOut => true
  | _ => false

theorem quarScan_not_fuelOut (errs : List Path) (fs : FS) (fullPath : Path)
    (content : String) (existingDir : Path) (bn extU : String) :
    ∀ (fuel count : Nat),
      (∃ n, count ≤ n ∧ n < count + fuel ∧
        pathExists fs (existingDir ++ [slotName bn extU n]) = false) →
      isFuelOut (quarScan errs fs fullPath content existingDir bn extU fuel count) = false := by
  intro fuel
  induction fuel with
  | zero =>
    intro count h
    obtain ⟨n, h1, h2, _⟩ := h
    omega
  | succ fuel ih =>
    intro count h
    rw [quarScan]
    split
    next hocc =>
      split
      next hlk => rfl
      next c hlk =>
        split
        next herr => rfl
        next herr =>
          split
          next heq => rfl
          next heq =>
            obtain ⟨n, h1, h2, h3⟩ := h
            have hns : n ≠ count := by
              intro hx
              rw [hx] at h3
              rw [h3] at hocc
              cases hocc
            have hrec := ih (count + 1) ⟨n, by omega, by omega, h3⟩
            cases hr : quarScan errs fs fullPath content existingDir bn extU fuel (count + 1) with
            | ok v =>
              obtain ⟨fs2, a2, evs2⟩ := v
              rfl
            | error e =>
              rw [hr] at hrec
              exact hrec
    next hocc => rfl

theorem quarScan_ok_shape (errs : List Path) (fs : FS) (fullPath : Path)
    (content : String) (existingDir : Path) (bn extU : String) :
    ∀ (fuel count : Nat) (fs2 : FS) (a : Action) (evs : List Ev),
      quarScan errs fs fullPath content existingDir bn extU fuel count = .ok (fs2, a, evs) →
      (∃ k, count ≤ k ∧ a = .quarMovedTo (existingDir ++ [slotName bn extU k]) ∧
        pathExists fs (existingDir ++ [slotName bn extU k]) = false ∧
        fs2 = removeF fs fullPath ++ [(existingDir ++ [slotName bn extU k], content)]) ∨
      (∃ k, count ≤ k ∧ a = .removedQuarDupOf (existingDir ++ [slotName bn extU k]) ∧
        lookupF fs (existingDir ++ [slotName bn extU k]) = some content ∧
        fs2 = removeF fs fullPath) := by
  intro fuel
  induction fuel with
  | zero => intro count fs2 a evs h; exact absurd h (by simp [quarScan])
  | succ fuel ih =>
    intro count fs2 a evs h
    rw [quarScan] at h
    split at h
    next hocc =>
      split at h
      next hlk => simp at h
      next c hlk =>
        split at h
        next herr => simp at h
        next herr =>
          split at h
          next heq =>
            simp only [Except.ok.injEq, Prod.mk.injEq] at h
            obtain ⟨hfs, ha, hevs⟩ := h
            refine Or.inr ⟨count, le_refl count, ha.symm, ?_, hfs.symm⟩
            rw [hlk, beq_iff_eq.mp heq]
          next heq =>
            cases hr : quarScan errs fs fullPath content existingDir bn extU fuel (count + 1) with
            | ok v =>
              obtain ⟨fs2r, a2, evs2⟩ := v
              rw [hr] at h
              simp only [Except.ok.injEq, Prod.mk.injEq] at h
              obtain ⟨hfs, ha, hevs⟩ := h
              rcases ih (count + 1) fs2r a2 evs2 hr with
                ⟨k, hk1, hk2, hk3, hk4⟩ | ⟨k, hk1, hk2, hk3, hk4⟩
              · exact Or.inl ⟨k, by omega, ha ▸ hk2, hk3, hfs ▸ hk4⟩
              · exact Or.inr ⟨k, by omega, ha ▸ hk2, hk3, hfs ▸ hk4⟩
            | error e =>
              rw [hr] at h
              simp at h
    next hocc =>
      have hocc2 : pathExists fs (existingDir ++ [slotName bn extU count]) = false := by
        cases hb : pathExists fs (existingDir ++ [slotName bn extU count]) with
        | false => rfl
        | true => exact absurd hb hocc
      simp only [Except.ok.injEq, Prod.mk.injEq] at h
      obtain ⟨hfs, ha, hevs⟩ := h
      exact Or.inl ⟨count, le_refl count, ha.symm, hocc2, hfs.symm⟩

theorem quarScan_ok (fs : FS) (fullPath : Path) (content : String)
    (existingDir : Path) (bn extU : String)
    (hprobe : ∀ k, pathExists fs (existingDir ++ [slotName bn extU k]) = true →
      ∃ v, lookupF fs (existingDir ++ [slotName bn extU k]) = some v) :
    ∀ (fuel count : Nat),
      (∃ n, count ≤ n ∧ n < count + fuel ∧
        pathExists fs (existingDir ++ [slotName bn extU n]) = false) →
      ∃ r, quarScan [] fs fullPath content existingDir bn extU fuel count = .ok r := by
  intro fuel
  induction fuel with
  | zero =>
    intro count h
    obtain ⟨n, h1, h2, _⟩ := h
    omega
  | succ fuel ih =>
    intro count h
    rw [quarScan]
    split
    next hocc =>
      split
      next hlk =>
        obtain ⟨v, hv⟩ := hprobe count hocc
        rw [hlk] at hv
        cases hv
      next c hlk =>
        split
        next herr => exact absurd herr (List.not_mem_nil _)
        next herr =>
          split
          next heq => exact ⟨_, rfl⟩
          next heq =>
            obtain ⟨n, h1, h2, h3⟩ := h
            have hns : n ≠ count := by
              intro hx
              rw [hx] at h3
              rw [h3] at hocc
              cases hocc
            obtain ⟨r, hr⟩ := ih (count + 1) ⟨n, by omega, by omega, h3⟩
            rw [hr]
            obtain ⟨fs2, a2, evs2⟩ := r
            exact ⟨_, rfl⟩
    next hocc => exact ⟨_, rfl⟩


/-! ### Utility lemmas about the filesystem primitives -/

theorem lookupF_mem {fs : FS} {p : Path} {v : String} (h : lookupF fs p = some v) :
    (p, v) ∈ fs := by
  unfold lookupF at h
  cases hf : fs.find? (fun e => e.1 == p) with
  | none => rw [hf] at h; cases h
  | some e =>
    rw [hf] at h
    have hm := List.mem_of_find?_eq_some hf
    have hp := List.find?_some hf
    simp only [beq_iff_eq] at hp
    simp only [Option.map_some', Option.some.injEq] at h
    rw [← hp, ← h]
    exact hm

theorem lookupF_pathExists {fs : FS} {p : Path} {v : String} (h : lookupF fs p = some v) :
    pathExists fs p = true := by
  unfold pathExists
  rw [List.any_eq_true]
  exact ⟨(p, v), lookupF_mem h, by simp [List.isPrefixOf_iff_prefix]⟩

theorem mem_lookupF {fs : FS} {p : Path} {c : String} (h : (p, c) ∈ fs) :
    ∃ v, lookupF fs p = some v := by
  unfold lookupF
  cases hf : fs.find? (fun e => e.1 == p) with
  | none =>
    have := List.find?_eq_none.mp hf (p, c) h
    simp at this
  | some e => exact ⟨e.2, rfl⟩

theorem lookupF_eq_of_mem_nodup {fs : FS} {p : Path} {c : String}
    (hnd : (fs.map (fun e => e.1)).Nodup) (h : (p, c) ∈ fs) :
    lookupF fs p = some c := by
  induction fs with
  | nil => cases h
  | cons e t ih =>
    simp only [List.map_cons, List.nodup_cons] at hnd
    rcases List.mem_cons.mp h with he | ht
    · rw [← he]
      unfold lookupF
      simp [List.find?]
    · have hne : ¬(e.1 == p) = true := by
        simp only [beq_iff_eq]
        intro hx
        exact hnd.1 (hx ▸ (List.mem_map.mpr ⟨(p, c), ht, rfl⟩))
      unfold lookupF
      rw [List.find?]
      simp only [hne, Bool.false_eq_true, if_false]
      exact ih hnd.2 ht

theorem lookupF_removeF {fs : FS} {p q : Path} (h : q ≠ p) :
    lookupF (removeF fs p) q = lookupF fs q := by
  induction fs with
  | nil => rfl
  | cons e t ih =>
    unfold removeF at ih ⊢
    by_cases he : e.1 = p
    · rw [List.filter]
      simp only [he, beq_self_eq_true, Bool.not_true]
      rw [ih]
      unfold lookupF
      rw [List.find?]
      have : ¬(e.1 == q) = true := by
        simp only [beq_iff_eq, he]
        exact fun hx => h hx.symm
      simp only [this, Bool.false_eq_true, if_false]
    · rw [List.filter]
      have : (!(e.1 == p)) = true := by
        simp [he]
      rw [this]
      unfold lookupF
      rw [List.find?, List.find?]
      by_cases hq : (e.1 == q) = true
      · simp [hq]
      · simp only [hq, Bool.false_eq_true, if_false]
        exact ih

theorem mem_removeF {fs : FS} {e : Path × String} {p : Path}
    (h : e ∈ fs) (hne : e.1 ≠ p) : e ∈ removeF fs p := by
  unfold removeF
  rw [List.mem_filter]
  exact ⟨h, by simp [hne]⟩

theorem removeF_subset {fs : FS} {p : Path} : ∀ e ∈ removeF fs p, e ∈ fs := by
  intro e he
  exact List.mem_of_mem_filter he

theorem removeF_ne {fs : FS} {p : Path} : ∀ e ∈ removeF fs p, e.1 ≠ p := by
  intro e he
  have := List.of_mem_filter he
  simpa using this

theorem pathExists_false_not_mem {fs : FS} {p : Path} (h : pathExists fs p = false)
    (c : String) : (p, c) ∉ fs := by
  intro hmem
  unfold pathExists at h
  rw [List.any_eq_false] at h
  have := h (p, c) hmem
  simp [List.isPrefixOf_iff_prefix] at this

/-! ### Classification of filenames -/

theorem lastDotIdx_none_of_no_dot {l : List Char} (h : ∀ c ∈ l, c ≠ '.') :
    lastDotIdx l = none := by
  induction l with
  | nil => rfl
  | cons c cs ih =>
    unfold lastDotIdx
    rw [ih (fun x hx => h x (List.mem_cons_of_mem c hx))]
    simp [h c (List.mem_cons_self c cs)]

theorem splitext_no_dot {s : String} (h : ∀ c ∈ s.data, c ≠ '.') :
    splitext s = (s, "") := by
  unfold splitext
  rw [lastDotIdx_none_of_no_dot h]

theorem extOf_no_dot {s : String} (h : ∀ c ∈ s.data, c ≠ '.') :
    extOf s = "UNKNOWN" := by
  unfold extOf
  rw [splitext_no_dot h]
  simp

theorem strStartsWith_dot_false {s : String} (h : ∀ c ∈ s.data, c ≠ '.') :
    strStartsWith s "." = false := by
  unfold strStartsWith
  cases hd : s.data with
  | nil => rfl
  | cons c cs =>
    have hc : c ≠ '.' := h c (hd ▸ List.mem_cons_self c cs)
    show List.isPrefixOf ['.'] (c :: cs) = false
    simp [List.isPrefixOf]
    intro hx
    exact absurd hx.symm hc

theorem concat_of_ne_nil {p : Path} (h : p ≠ []) : p.dropLast ++ [p.getLastD ""] = p := by
  induction p using List.reverseRecOn with
  | nil => exact absurd rfl h
  | append_singleton L b _ =>
    rw [List.dropLast_concat, List.getLastD_concat]


/-! ### Claim C2: which files are skipped as extensionless -/

/-- C2 counterexample.  The claim says a file whose suffix after the last
dot is empty (a name ending in a dot) is skipped and left in place.  On the
input tree holding the single file `a.` the organizer does not leave it in
place: `os.path.splitext` yields extension `"."`, stripping the dot gives
the empty string (not the `UNKNOWN` sentinel), and the file is moved into
the bucket directory named `Extension_`. -/
theorem claim2_counterexample :
    (organize_by_extension [] true [(["a."], "X")]).1 = [(["Extension_", "a."], "X")] ∧
    ([(["Extension_", "a."], "X")] : FS) ≠ [(["a."], "X")] := by
  constructor
  · rfl
  · decide

/-- C2 amended: a non-hidden file whose name contains no dot at all gets the
`UNKNOWN` extension sentinel and is skipped entirely, with no filesystem
change and no output.  (Names ending in a dot are not skipped; see the
counterexample.) -/
theorem claim2_theorem (errs : List Path) (fs : FS) (root : Path) (fn : String)
    (h : ∀ c ∈ fn.data, c ≠ '.') :
    processFile errs fs root fn = .ok (fs, .skippedNoExt, []) := by
  have hh := strStartsWith_dot_false h
  have he := extOf_no_dot h
  simp [processFile, hh, he]

/-- Witness for C2 at the dotless filename `README`. -/
theorem claim2_witness :
    (∀ c ∈ ("README" : String).data, c ≠ '.') ∧
    processFile [] [] [] "README" = .ok ([], .skippedNoExt, []) :=
  ⟨by decide, claim2_theorem [] [] [] "README" (by decide)⟩

/-! ### Claim C3: invalid base directory -/

/-- C3 counterexample.  The claim says an invalid or inaccessible base
directory is reported immediately and fatally.  It is not: `os.walk` hands
the scandir failure to its default `onerror=None`, which swallows it, so
the run on an inaccessible base completes normally — no error in the
result, and an output stream (start and completion messages only) identical
to a successful run over an empty directory. -/
theorem claim3_counterexample :
    organize_by_extension [] false [(["a.txt"], "X")] =
      ([(["a.txt"], "X")], [Ev.started, Ev.doneMsg], none) := rfl

/-- C3 amended: an invalid or inaccessible base directory makes `os.walk`
yield nothing (its scandir error is ignored by the default `onerror=None`);
the run performs no traversal, changes nothing, reports no error, and
completes normally with only the start and completion messages. -/
theorem claim3_theorem (errs : List Path) (fs : FS) :
    organize_by_extension errs false fs = (fs, [Ev.started, Ev.doneMsg], none) := rfl

/-! ### Claim C10: the literal UNKNOWN extension is the skip sentinel -/

/-- C10: a non-hidden file whose extension, stripped of the dot and
uppercased, is the string `UNKNOWN` (a file named `*.unknown` in any letter
case) is skipped entirely and left in place, because that value collides
with the internal no-extension sentinel of lines 50-54. -/
theorem claim10_theorem (errs : List Path) (fs : FS) (root : Path) (fn : String)
    (hh : strStartsWith fn "." = false)
    (hne : (splitext fn).2 ≠ "")
    (hu : strUpper (strDrop (splitext fn).2 1) = "UNKNOWN") :
    processFile errs fs root fn = .ok (fs, .skippedNoExt, []) := by
  have he : extOf fn = "UNKNOWN" := by
    unfold extOf
    simp only [hne, if_true, ne_eq, not_false_eq_true]
    exact hu
  simp [processFile, hh, he]

/-- Witness for C10 at the filename `notes.Unknown`. -/
theorem claim10_witness :
    strStartsWith "notes.Unknown" "." = false ∧
    (splitext "notes.Unknown").2 ≠ "" ∧
    strUpper (strDrop (splitext "notes.Unknown").2 1) = "UNKNOWN" ∧
    processFile [] [] [] "notes.Unknown" = .ok ([], .skippedNoExt, []) :=
  ⟨by decide, by decide, by decide,
    claim10_theorem [] [] [] "notes.Unknown" (by decide) (by decide) (by decide)⟩

/-! ### Claim C8: termination of the quarantine slot scan -/

/-- C8: for every finite filesystem state the quarantine slot scan of lines
105-121 terminates: run with the model fuel bound `fs.length + 1` it never
exhausts the bound, because among `fs.length + 1` consecutive candidate
slot names at least one is unoccupied, and the scan stops at an unoccupied
slot (or earlier, at a hash match or an exception). -/
theorem claim8_theorem (errs : List Path) (fs : FS) (fullPath : Path)
    (content : String) (existingDir : Path) (bn extU : String) :
    isFuelOut (quarScan errs fs fullPath content existingDir bn extU (fs.length + 1) 1) = false := by
  obtain ⟨n, h1, h2, h3⟩ := exists_unoccupied fs existingDir bn extU 1
  exact quarScan_not_fuelOut errs fs fullPath content existingDir bn extU (fs.length + 1) 1
    ⟨n, h1, by omega, h3⟩

/-! ### Claim C1: an I/O error does not stop the traversal (refuted) -/

/-- C1 counterexample.  The claim says a file whose hashing raises an I/O
error is reported and skipped, and the traversal continues.  It does not:
the script has no exception handler, so on a tree with two files where
hashing the first raises, the run aborts with the exception — nothing is
reported except the start message, the first file stays, and the second
file is never visited (it would have been moved into `Extension_TXT`). -/
theorem claim1_counterexample :
    organize_by_extension [["a", "f.txt"]] true
        [(["a", "f.txt"], "A"), (["b", "g.txt"], "B")] =
      ([(["a", "f.txt"], "A"), (["b", "g.txt"], "B")],
        [Ev.started], some (PyErr.ioError ["a", "f.txt"])) := rfl

/-- Processing a readable, non-hidden, extensioned file whose read raises
propagates the exception: line 66 `hash_file` has no handler around it. -/
theorem processPath_hash_error (errs : List Path) (fs : FS) (p : Path) (c : String)
    (hnil : p ≠ [])
    (hh : strStartsWith (p.getLastD "") "." = false)
    (hext : extOf (p.getLastD "") ≠ "UNKNOWN")
    (hc : lookupF fs p = some c) (hp : p ∈ errs) :
    processPath errs fs p = .error (.ioError p) := by
  have hfull := concat_of_ne_nil hnil
  have hb : (extOf (p.getLastD "") == "UNKNOWN") = false :=
    beq_eq_false_iff_ne.mpr hext
  unfold processPath processFile
  rw [hh]
  simp only [Bool.false_eq_true, if_false]
  rw [hb]
  simp only [Bool.false_eq_true, if_false]
  rw [hfull, hc]
  simp [hp]

/-- The walk loop over `l1 ++ l2` first runs `l1`; if that prefix raises no
exception, the run continues into `l2` from the state `l1` produced, with
the event streams concatenated and the final outcome that of `l2`. -/
theorem runFiles_append (errs : List Path) :
    ∀ (l1 l2 : List Path) (fs fs1 : FS) (evs1 : List Ev),
      runFiles errs l1 fs = (fs1, evs1, none) →
      runFiles errs (l1 ++ l2) fs =
        ((runFiles errs l2 fs1).1, evs1 ++ (runFiles errs l2 fs1).2.1,
          (runFiles errs l2 fs1).2.2) := by
  intro l1
  induction l1 with
  | nil =>
    intro l2 fs fs1 evs1 h
    have h2 : ((fs, [], none) : FS × List Ev × Option PyErr) = (fs1, evs1, none) := h
    simp only [Prod.mk.injEq] at h2
    obtain ⟨he1, he2, -⟩ := h2
    subst he1
    rw [← he2]
    simp
  | cons q l1 ih =>
    intro l2 fs fs1 evs1 h
    cases hq : processPath errs fs q with
    | error e =>
      have hcomp : runFiles errs (q :: l1) fs = (fs, [], some e) := by
        simp only [runFiles, hq]
      rw [hcomp] at h
      simp only [Prod.mk.injEq] at h
      exact absurd h.2.2 (by simp)
    | ok v =>
      obtain ⟨fsa, aa, evsa⟩ := v
      have hcomp : runFiles errs (q :: l1) fs =
          ((runFiles errs l1 fsa).1, evsa ++ (runFiles errs l1 fsa).2.1,
            (runFiles errs l1 fsa).2.2) := by
        simp only [runFiles, hq]
      rw [hcomp] at h
      cases hr : runFiles errs l1 fsa with
      | mk fsb rest =>
        obtain ⟨evsb, errb⟩ := rest
        rw [hr] at h
        simp only [Prod.mk.injEq] at h
        obtain ⟨hb1, hb2, hb3⟩ := h
        have hl1 : runFiles errs l1 fsa = (fsb, evsb, none) := by rw [hr, hb3]
        have hrec := ih l2 fsa fsb evsb hl1
        have hcomp2 : runFiles errs ((q :: l1) ++ l2) fs =
            ((runFiles errs (l1 ++ l2) fsa).1,
              evsa ++ (runFiles errs (l1 ++ l2) fsa).2.1,
              (runFiles errs (l1 ++ l2) fsa).2.2) := by
          simp only [List.cons_append, runFiles, hq]
          rfl
        rw [hcomp2, hrec, ← hb1, ← hb2]
        simp [List.append_assoc]

/-- C1 amended: an uncaught I/O error while hashing a file aborts the run
at whatever point of the traversal it occurs: the files the walk visited
earlier keep exactly the effects of their processing, the failing file and
every file not yet visited are left unprocessed, the exception is the
propagated result, and the completion message is never printed. -/
theorem claim1_theorem (errs : List Path) (fs fsMid : FS) (l1 : List Path) (p : Path)
    (l2 : List Path) (evs1 : List Ev) (c : String)
    (hw : walkList fs = l1 ++ p :: l2)
    (hpre : runFiles errs l1 fs = (fsMid, evs1, none))
    (hnil : p ≠ [])
    (hh : strStartsWith (p.getLastD "") "." = false)
    (hext : extOf (p.getLastD "") ≠ "UNKNOWN")
    (hc : lookupF fsMid p = some c)
    (hp : p ∈ errs) :
    organize_by_extension errs true fs = (fsMid, Ev.started :: evs1, some (.ioError p)) := by
  have hproc := processPath_hash_error errs fsMid p c hnil hh hext hc hp
  have hstop : runFiles errs (p :: l2) fsMid = (fsMid, [], some (.ioError p)) := by
    simp only [runFiles, hproc]
  have hall := runFiles_append errs l1 (p :: l2) fs fsMid evs1 hpre
  rw [hstop] at hall
  simp only [List.append_nil] at hall
  simp [organize_by_extension, hw, hall]

/-- Witness for C1 with the error striking mid-traversal: the first file is
processed (moved into its bucket), hashing the second raises, and the third
is never visited. -/
theorem claim1_witness :
    walkList [(["a", "f.txt"], "A"), (["b", "g.txt"], "B"), (["d", "h.txt"], "C")] =
        [["a", "f.txt"]] ++ ["b", "g.txt"] :: [["d", "h.txt"]] ∧
    runFiles [["b", "g.txt"]] [["a", "f.txt"]]
        [(["a", "f.txt"], "A"), (["b", "g.txt"], "B"), (["d", "h.txt"], "C")] =
      ([(["b", "g.txt"], "B"), (["d", "h.txt"], "C"), (["Extension_TXT", "f.txt"], "A")],
        [Ev.hashed ["a", "f.txt"], Ev.moved ["a", "f.txt"] ["Extension_TXT", "f.txt"]],
        none) ∧
    (["b", "g.txt"] : Path) ≠ [] ∧
    strStartsWith ((["b", "g.txt"] : Path).getLastD "") "." = false ∧
    extOf ((["b", "g.txt"] : Path).getLastD "") ≠ "UNKNOWN" ∧
    lookupF [(["b", "g.txt"], "B"), (["d", "h.txt"], "C"), (["Extension_TXT", "f.txt"], "A")]
      ["b", "g.txt"] = some "B" ∧
    (["b", "g.txt"] : Path) ∈ [(["b", "g.txt"] : Path)] ∧
    organize_by_extension [["b", "g.txt"]] true
        [(["a", "f.txt"], "A"), (["b", "g.txt"], "B"), (["d", "h.txt"], "C")] =
      ([(["b", "g.txt"], "B"), (["d", "h.txt"], "C"), (["Extension_TXT", "f.txt"], "A")],
        Ev.started ::
          [Ev.hashed ["a", "f.txt"], Ev.moved ["a", "f.txt"] ["Extension_TXT", "f.txt"]],
        some (PyErr.ioError ["b", "g.txt"])) :=
  ⟨by decide, by decide, by decide, by decide, by decide, by decide, by decide,
    claim1_theorem [["b", "g.txt"]]
      [(["a", "f.txt"], "A"), (["b", "g.txt"], "B"), (["d", "h.txt"], "C")]
      [(["b", "g.txt"], "B"), (["d", "h.txt"], "C"), (["Extension_TXT", "f.txt"], "A")]
      [["a", "f.txt"]] ["b", "g.txt"] [["d", "h.txt"]]
      [Ev.hashed ["a", "f.txt"], Ev.moved ["a", "f.txt"] ["Extension_TXT", "f.txt"]] "B"
      (by decide) (by decide) (by decide) (by decide) (by decide) (by decide) (by decide)⟩

/-! ### Generic branch lemmas for the loop body -/

/-- A non-hidden extensioned readable file whose destination path does not
exist is hashed (line 66) and then moved (case 1, lines 69-72). -/
theorem processFile_move (errs : List Path) (fs : FS) (root : Path) (fn : String) (c : String)
    (hh : strStartsWith fn "." = false)
    (hext : extOf fn ≠ "UNKNOWN")
    (hc : lookupF fs (root ++ [fn]) = some c)
    (he : (root ++ [fn]) ∉ errs)
    (hfree : pathExists fs ["Extension_" ++ extOf fn, fn] = false) :
    processFile errs fs root fn =
      .ok (removeF fs (root ++ [fn]) ++ [(["Extension_" ++ extOf fn, fn], c)],
        .movedTo ["Extension_" ++ extOf fn, fn],
        [Ev.hashed (root ++ [fn]), Ev.moved (root ++ [fn]) ["Extension_" ++ extOf fn, fn]]) := by
  have hb : (extOf fn == "UNKNOWN") = false := beq_eq_false_iff_ne.mpr hext
  unfold processFile
  rw [hh]
  simp only [Bool.false_eq_true, if_false]
  rw [hb]
  simp only [Bool.false_eq_true, if_false]
  rw [hc]
  simp only [List.singleton_append] at hfree ⊢
  simp [he, hfree]

/-- A non-hidden extensioned readable file whose destination exists with
the same content (hence the same size and hash) is removed as an exact
duplicate (case 3, lines 90-93). -/
theorem processFile_dup (errs : List Path) (fs : FS) (root : Path) (fn : String) (c : String)
    (hh : strStartsWith fn "." = false)
    (hext : extOf fn ≠ "UNKNOWN")
    (hc : lookupF fs (root ++ [fn]) = some c)
    (he1 : (root ++ [fn]) ∉ errs)
    (hd : lookupF fs ["Extension_" ++ extOf fn, fn] = some c)
    (he2 : (["Extension_" ++ extOf fn, fn] : Path) ∉ errs) :
    processFile errs fs root fn =
      .ok (removeF fs (root ++ [fn]),
        .removedDupOf ["Extension_" ++ extOf fn, fn],
        [Ev.hashed (root ++ [fn]), Ev.hashed ["Extension_" ++ extOf fn, fn],
          Ev.dupRemoved (root ++ [fn])]) := by
  have hb : (extOf fn == "UNKNOWN") = false := beq_eq_false_iff_ne.mpr hext
  have hex : pathExists fs (["Extension_" ++ extOf fn] ++ [fn]) = true := by
    simpa using lookupF_pathExists hd
  unfold processFile
  rw [hh]
  simp only [Bool.false_eq_true, if_false]
  rw [hb]
  simp only [Bool.false_eq_true, if_false]
  rw [hc]
  simp only [hex, Bool.not_true, Bool.false_eq_true, if_false]
  rw [show lookupF fs (["Extension_" ++ extOf fn] ++ [fn]) = some c by simpa using hd]
  simp only [List.singleton_append]
  simp [he1, he2]

/-- A bucket-headed path of at least two components is never a prefix of a
path whose directory components are free of `Extension_*`. -/
theorem isPrefixOf_extHead_false {d : Path} {x z : String} {q : Path}
    (hd : extFreeDirs d = true) (hx : strStartsWith x "Extension_" = true)
    (hq : q ≠ []) : (x :: q).isPrefixOf (d ++ [z]) = false := by
  cases d with
  | nil =>
    show List.isPrefixOf (x :: q) [z] = false
    cases q with
    | nil => exact absurd rfl hq
    | cons a b => simp [List.isPrefixOf]
  | cons h t =>
    show List.isPrefixOf (x :: q) (h :: (t ++ [z])) = false
    have hh2 : strStartsWith h "Extension_" = false := by
      unfold extFreeDirs at hd
      simp only [List.all_cons, Bool.and_eq_true, Bool.not_eq_true'] at hd
      exact hd.1
    have hxh : (x == h) = false := by
      rw [beq_eq_false_iff_ne]
      intro hxe
      rw [hxe] at hx
      rw [hx] at hh2
      cases hh2
    simp [List.isPrefixOf, hxh]

/-! ### Claim C4: hashing is not lazy (refuted) -/

/-- C4 counterexample.  The claim says the hash is computed only after a
name collision, and a file with no collision is moved without being hashed.
On a tree with a single file (so no collision is possible) the event stream
contains the hash of that file, emitted by line 66 before the destination
is even checked. -/
theorem claim4_counterexample :
    organize_by_extension [] true [(["a.txt"], "X")] =
      ([(["Extension_TXT", "a.txt"], "X")],
        [Ev.started, Ev.hashed ["a.txt"], Ev.moved ["a.txt"] ["Extension_TXT", "a.txt"],
          Ev.doneMsg], none) := rfl

/-- C4 amended: hashing is unconditional.  Every processed (non-skipped,
readable) file has its size and SHA-1 computed by lines 65-66 before the
destination check of line 69; in particular a file with no name collision
at its destination is hashed exactly once and then moved. -/
theorem claim4_theorem (errs : List Path) (fs : FS) (root : Path) (fn : String) (c : String)
    (hh : strStartsWith fn "." = false)
    (hext : extOf fn ≠ "UNKNOWN")
    (hc : lookupF fs (root ++ [fn]) = some c)
    (he : (root ++ [fn]) ∉ errs)
    (hfree : pathExists fs ["Extension_" ++ extOf fn, fn] = false) :
    processFile errs fs root fn =
      .ok (removeF fs (root ++ [fn]) ++ [(["Extension_" ++ extOf fn, fn], c)],
        .movedTo ["Extension_" ++ extOf fn, fn],
        [Ev.hashed (root ++ [fn]), Ev.moved (root ++ [fn]) ["Extension_" ++ extOf fn, fn]]) :=
  processFile_move errs fs root fn c hh hext hc he hfree

/-- Witness for C4: a single-file tree, no possible collision, still
hashed. -/
theorem claim4_witness :
    strStartsWith "a.txt" "." = false ∧
    extOf "a.txt" ≠ "UNKNOWN" ∧
    lookupF [(["a.txt"], "X")] ([] ++ ["a.txt"]) = some "X" ∧
    ([] ++ ["a.txt"] : Path) ∉ ([] : List Path) ∧
    pathExists [(["a.txt"], "X")] ["Extension_" ++ extOf "a.txt", "a.txt"] = false ∧
    processFile [] [(["a.txt"], "X")] [] "a.txt" =
      .ok (removeF [(["a.txt"], "X")] ([] ++ ["a.txt"]) ++
            [(["Extension_" ++ extOf "a.txt", "a.txt"], "X")],
        .movedTo ["Extension_" ++ extOf "a.txt", "a.txt"],
        [Ev.hashed ([] ++ ["a.txt"]), Ev.moved ([] ++ ["a.txt"])
          ["Extension_" ++ extOf "a.txt", "a.txt"]]) :=
  ⟨by decide, by decide, by decide, by decide, by decide,
    claim4_theorem [] [(["a.txt"], "X")] [] "a.txt" "X"
      (by decide) (by decide) (by decide) (by decide) (by decide)⟩


/-! ### Paths produced by the organizer never alias a walked source path -/

theorem extFreeDirs_ne_two {root : Path} {fn x y : String}
    (h : extFreeDirs root = true) (hx : strStartsWith x "Extension_" = true) :
    root ++ [fn] ≠ [x, y] := by
  intro he
  cases root with
  | nil => simp at he
  | cons r t =>
    cases t with
    | nil =>
      simp only [List.cons_append, List.nil_append, List.cons.injEq] at he
      obtain ⟨h1, _⟩ := he
      unfold extFreeDirs at h
      simp only [List.all_cons, List.all_nil, Bool.and_true] at h
      rw [h1, hx] at h
      cases h
    | cons r2 t2 => simp at he

theorem extFreeDirs_ne_three {root : Path} {fn x0 x1 y : String}
    (h : extFreeDirs root = true) (hx : strStartsWith x0 "Extension_" = true) :
    root ++ [fn] ≠ [x0, x1, y] := by
  intro he
  cases root with
  | nil => simp at he
  | cons r t =>
    cases t with
    | nil => simp at he
    | cons r2 t2 =>
      cases t2 with
      | nil =>
        simp only [List.cons_append, List.nil_append, List.cons.injEq] at he
        obtain ⟨h1, _⟩ := he
        unfold extFreeDirs at h
        simp only [List.all_cons, Bool.and_eq_true] at h
        rw [h1, hx] at h
        exact absurd h.1 (by simp)
      | cons r3 t3 => simp at he

theorem startsWith_self_append (a b : String) : strStartsWith (a ++ b) a = true := by
  unfold strStartsWith
  rw [strData_append, List.isPrefixOf_iff_prefix]
  exact List.prefix_append a.data b.data

/-! ### Claim C6: every terminal action preserves content; deletion only on
a hash match -/

/-- C6: for a readable file reached by the walk (its directory path free of
`Extension_*` components, as the pruned walk guarantees) that the loop body
disposes of without an exception, the terminal action is a skip (file kept
unchanged), a move / rename-move / quarantine-move (its content now at the
recorded destination), or a removal; and a removal only happens when the
content hash of the file matched that of the already-placed file recorded
in the action, which survives with that same content.  No content is lost. -/
theorem claim6_theorem (errs : List Path) (fs : FS) (root : Path) (fn : String) (c : String)
    (hroot : extFreeDirs root = true)
    (hc : lookupF fs (root ++ [fn]) = some c)
    (fs1 : FS) (a : Action) (evs : List Ev)
    (h : processFile errs fs root fn = .ok (fs1, a, evs)) :
    ((a = .skippedHidden ∨ a = .skippedNoExt) ∧ fs1 = fs) ∨
    (∃ dest, (a = .movedTo dest ∨ a = .renamedTo dest ∨ a = .quarMovedTo dest) ∧
      fs1 = removeF fs (root ++ [fn]) ++ [(dest, c)]) ∨
    (∃ keeper, (a = .removedDupOf keeper ∨ a = .removedQuarDupOf keeper) ∧
      fs1 = removeF fs (root ++ [fn]) ∧ keeper ≠ root ++ [fn] ∧
      lookupF fs keeper = some c ∧ lookupF fs1 keeper = some c) := by
  simp only [processFile] at h
  split at h
  · simp only [Except.ok.injEq, Prod.mk.injEq] at h
    exact Or.inl ⟨Or.inl h.2.1.symm, h.1.symm⟩
  next hhid =>
    split at h
    · simp only [Except.ok.injEq, Prod.mk.injEq] at h
      exact Or.inl ⟨Or.inr h.2.1.symm, h.1.symm⟩
    next hunk =>
      split at h
      next hlk => rw [hc] at hlk; cases hlk
      next content hlk =>
        rw [hc] at hlk
        injection hlk with hlk
        subst hlk
        split at h
        · simp at h
        next herr =>
          split at h
          next hfree =>
            simp only [Except.ok.injEq, Prod.mk.injEq] at h
            refine Or.inr (Or.inl ⟨_, Or.inl h.2.1.symm, ?_⟩)
            rw [← h.1]
          next hfree =>
            split at h
            next hlk2 => simp at h
            next ec hlk2 =>
              split at h
              · simp at h
              next herr2 =>
                split at h
                next hsz =>
                  simp only [Except.ok.injEq, Prod.mk.injEq] at h
                  refine Or.inr (Or.inl ⟨_, Or.inr (Or.inl h.2.1.symm), ?_⟩)
                  rw [← h.1]
                next hsz =>
                  split at h
                  next heqc =>
                    simp only [Except.ok.injEq, Prod.mk.injEq] at h
                    have hec : c = ec := beq_iff_eq.mp heqc
                    have hkne : (["Extension_" ++ extOf fn, fn] : Path) ≠ root ++ [fn] :=
                      fun hx => extFreeDirs_ne_two hroot
                        (startsWith_self_append "Extension_" (extOf fn)) hx.symm
                    refine Or.inr (Or.inr ⟨["Extension_" ++ extOf fn, fn],
                      Or.inl h.2.1.symm, h.1.symm, hkne, ?_, ?_⟩)
                    · simpa [← hec] using hlk2
                    · rw [← h.1]
                      rw [lookupF_removeF hkne]
                      simpa [← hec] using hlk2
                  next heqc =>
                    split at h
                    next hqfree =>
                      simp only [Except.ok.injEq, Prod.mk.injEq] at h
                      refine Or.inr (Or.inl ⟨_, Or.inr (Or.inr h.2.1.symm), ?_⟩)
                      rw [← h.1]
                    next hqfree =>
                      cases hr : quarScan errs fs (root ++ [fn]) c
                          ["Extension_EXISTING", "Extension_" ++ extOf fn]
                          (splitext fn).1 (extOf fn) (fs.length + 1) 1 with
                      | ok r =>
                        obtain ⟨fs2, a2, evs2⟩ := r
                        rw [hr] at h
                        injection h with h1
                        injection h1 with hfs h2
                        injection h2 with ha hevs
                        rcases quarScan_ok_shape errs fs (root ++ [fn]) c
                            ["Extension_EXISTING", "Extension_" ++ extOf fn]
                            (splitext fn).1 (extOf fn) (fs.length + 1) 1 fs2 a2 evs2 hr with
                          ⟨k, _, ha2, _, hfs2⟩ | ⟨k, _, ha2, hlk3, hfs2⟩
                        · refine Or.inr (Or.inl
                            ⟨["Extension_EXISTING", "Extension_" ++ extOf fn] ++
                              [slotName (splitext fn).1 (extOf fn) k],
                              Or.inr (Or.inr ?_), ?_⟩)
                          · rw [← ha, ha2]
                          · rw [← hfs, hfs2]
                        · have hkne : (["Extension_EXISTING", "Extension_" ++ extOf fn] ++
                              [slotName (splitext fn).1 (extOf fn) k] : Path) ≠ root ++ [fn] := by
                            intro hx
                            exact extFreeDirs_ne_three hroot (by decide) hx.symm
                          refine Or.inr (Or.inr
                            ⟨["Extension_EXISTING", "Extension_" ++ extOf fn] ++
                              [slotName (splitext fn).1 (extOf fn) k],
                              Or.inr ?_, ?_, hkne, hlk3, ?_⟩)
                          · rw [← ha, ha2]
                          · rw [← hfs, hfs2]
                          · rw [← hfs, hfs2, lookupF_removeF hkne]
                            exact hlk3
                      | error e =>
                        rw [hr] at h
                        exact absurd h (by simp)

/-- Witness for C6 at an exact-duplicate removal. -/
theorem claim6_witness :
    extFreeDirs ["sub"] = true ∧
    lookupF [(["sub", "a.txt"], "X"), (["Extension_TXT", "a.txt"], "X")]
      (["sub"] ++ ["a.txt"]) = some "X" ∧
    processFile [] [(["sub", "a.txt"], "X"), (["Extension_TXT", "a.txt"], "X")]
        ["sub"] "a.txt" =
      .ok ([(["Extension_TXT", "a.txt"], "X")],
        .removedDupOf ["Extension_TXT", "a.txt"],
        [Ev.hashed ["sub", "a.txt"], Ev.hashed ["Extension_TXT", "a.txt"],
          Ev.dupRemoved ["sub", "a.txt"]]) ∧
    ((((.removedDupOf ["Extension_TXT", "a.txt"] : Action) = .skippedHidden ∨
        (.removedDupOf ["Extension_TXT", "a.txt"] : Action) = .skippedNoExt) ∧
      ([(["Extension_TXT", "a.txt"], "X")] : FS) =
        [(["sub", "a.txt"], "X"), (["Extension_TXT", "a.txt"], "X")]) ∨
    (∃ dest, ((.removedDupOf ["Extension_TXT", "a.txt"] : Action) = .movedTo dest ∨
        (.removedDupOf ["Extension_TXT", "a.txt"] : Action) = .renamedTo dest ∨
        (.removedDupOf ["Extension_TXT", "a.txt"] : Action) = .quarMovedTo dest) ∧
      ([(["Extension_TXT", "a.txt"], "X")] : FS) =
        removeF [(["sub", "a.txt"], "X"), (["Extension_TXT", "a.txt"], "X")]
          (["sub"] ++ ["a.txt"]) ++ [(dest, "X")]) ∨
    (∃ keeper, ((.removedDupOf ["Extension_TXT", "a.txt"] : Action) = .removedDupOf keeper ∨
        (.removedDupOf ["Extension_TXT", "a.txt"] : Action) = .removedQuarDupOf keeper) ∧
      ([(["Extension_TXT", "a.txt"], "X")] : FS) =
        removeF [(["sub", "a.txt"], "X"), (["Extension_TXT", "a.txt"], "X")]
          (["sub"] ++ ["a.txt"]) ∧
      keeper ≠ ["sub"] ++ ["a.txt"] ∧
      lookupF [(["sub", "a.txt"], "X"), (["Extension_TXT", "a.txt"], "X")] keeper = some "X" ∧
      lookupF [(["Extension_TXT", "a.txt"], "X")] keeper = some "X")) :=
  ⟨by decide, by decide, rfl,
    claim6_theorem [] [(["sub", "a.txt"], "X"), (["Extension_TXT", "a.txt"], "X")]
      ["sub"] "a.txt" "X" (by decide) (by decide)
      [(["Extension_TXT", "a.txt"], "X")]
      (.removedDupOf ["Extension_TXT", "a.txt"])
      [Ev.hashed ["sub", "a.txt"], Ev.hashed ["Extension_TXT", "a.txt"],
        Ev.dupRemoved ["sub", "a.txt"]] rfl⟩


/-! ### Claim C7: size-mismatch rename picks the lowest free slot -/

/-- C7: when the destination `Extension_<EXT>/fn` exists as a file whose
size differs from the incoming (readable, non-hidden, extensioned) file,
the loop body moves the file to the bucket path named with the counter `N`
chosen by lines 80-82, and that `N` is the lowest positive integer whose
slot name does not already exist in the bucket: `N ≥ 1`, slot `N` does not
exist, every slot `1 ≤ m < N` exists.  The bucket directory carries the
uppercased extension (`"Extension_" ++ extOf fn`, where `extOf` uppercases)
while the slot filename carries the lowercased extension:
`slotName bn dd N = bn ++ "_" ++ Nat.repr N ++ "." ++ strLower dd`. -/
theorem claim7_theorem (errs : List Path) (fs : FS) (root : Path) (fn : String)
    (c d : String) (bn dd : String) (N : Nat)
    (hbn : bn = (splitext fn).1) (hdd : dd = extOf fn)
    (hN : N = findFree fs ["Extension_" ++ dd] bn dd)
    (hh : strStartsWith fn "." = false)
    (hext : extOf fn ≠ "UNKNOWN")
    (hc : lookupF fs (root ++ [fn]) = some c)
    (he1 : (root ++ [fn]) ∉ errs)
    (hd : lookupF fs ["Extension_" ++ dd, fn] = some d)
    (he2 : (["Extension_" ++ dd, fn] : Path) ∉ errs)
    (hsz : c.length ≠ d.length) :
    processFile errs fs root fn =
      .ok (removeF fs (root ++ [fn]) ++ [(["Extension_" ++ dd, slotName bn dd N], c)],
        .renamedTo ["Extension_" ++ dd, slotName bn dd N],
        [Ev.hashed (root ++ [fn]), Ev.hashed ["Extension_" ++ dd, fn],
          Ev.renamedMoved (root ++ [fn]) ["Extension_" ++ dd, slotName bn dd N]]) ∧
    1 ≤ N ∧
    pathExists fs ["Extension_" ++ dd, slotName bn dd N] = false ∧
    (∀ m, 1 ≤ m → m < N → pathExists fs ["Extension_" ++ dd, slotName bn dd m] = true) ∧
    slotName bn dd N = bn ++ "_" ++ Nat.repr N ++ "." ++ strLower dd := by
  subst hbn hdd hN
  have hb : (extOf fn == "UNKNOWN") = false := beq_eq_false_iff_ne.mpr hext
  obtain ⟨hge, hfree, hmin⟩ := findFree_spec fs ["Extension_" ++ extOf fn] (splitext fn).1 (extOf fn)
  refine ⟨?_, hge, by simpa using hfree, fun m h1 h2 => by simpa using hmin m h1 h2, rfl⟩
  have hex : pathExists fs (["Extension_" ++ extOf fn] ++ [fn]) = true := by
    simpa using lookupF_pathExists hd
  unfold processFile
  rw [hh]
  simp only [Bool.false_eq_true, if_false]
  rw [hb]
  simp only [Bool.false_eq_true, if_false]
  rw [hc]
  simp only [hex, Bool.not_true, Bool.false_eq_true, if_false]
  rw [show lookupF fs (["Extension_" ++ extOf fn] ++ [fn]) = some d by simpa using hd]
  simp only [List.singleton_append]
  simp [he1, he2, hsz]

/-- Witness for C7: the bucket holds `a.txt` of a different size; the
incoming `s/a.txt` is renamed to slot 1. -/
theorem claim7_witness :
    (("a" : String) = (splitext "a.txt").1 ∧
      ("TXT" : String) = extOf "a.txt" ∧
      1 = findFree [(["Extension_TXT", "a.txt"], "ZZ"), (["s", "a.txt"], "X")]
        ["Extension_TXT"] "a" "TXT" ∧
      strStartsWith "a.txt" "." = false ∧
      extOf "a.txt" ≠ "UNKNOWN" ∧
      lookupF [(["Extension_TXT", "a.txt"], "ZZ"), (["s", "a.txt"], "X")]
        (["s"] ++ ["a.txt"]) = some "X" ∧
      lookupF [(["Extension_TXT", "a.txt"], "ZZ"), (["s", "a.txt"], "X")]
        ["Extension_TXT", "a.txt"] = some "ZZ" ∧
      ("X" : String).length ≠ ("ZZ" : String).length) ∧
    processFile [] [(["Extension_TXT", "a.txt"], "ZZ"), (["s", "a.txt"], "X")]
        ["s"] "a.txt" =
      .ok (removeF [(["Extension_TXT", "a.txt"], "ZZ"), (["s", "a.txt"], "X")]
            (["s"] ++ ["a.txt"]) ++ [(["Extension_TXT", slotName "a" "TXT" 1], "X")],
        .renamedTo ["Extension_TXT", slotName "a" "TXT" 1],
        [Ev.hashed (["s"] ++ ["a.txt"]), Ev.hashed ["Extension_TXT", "a.txt"],
          Ev.renamedMoved (["s"] ++ ["a.txt"]) ["Extension_TXT", slotName "a" "TXT" 1]]) ∧
    pathExists [(["Extension_TXT", "a.txt"], "ZZ"), (["s", "a.txt"], "X")]
      ["Extension_TXT", slotName "a" "TXT" 1] = false :=
  ⟨⟨by decide, by decide, by decide, by decide, by decide, by decide, by decide, by decide⟩,
    (claim7_theorem [] [(["Extension_TXT", "a.txt"], "ZZ"), (["s", "a.txt"], "X")]
      ["s"] "a.txt" "X" "ZZ" "a" "TXT" 1
      (by decide) (by decide) (by decide) (by decide) (by decide) (by decide)
      (by decide) (by decide) (by decide) (by decide)).1,
    (claim7_theorem [] [(["Extension_TXT", "a.txt"], "ZZ"), (["s", "a.txt"], "X")]
      ["s"] "a.txt" "X" "ZZ" "a" "TXT" 1
      (by decide) (by decide) (by decide) (by decide) (by decide) (by decide)
      (by decide) (by decide) (by decide) (by decide)).2.2.1⟩


/-! ### Claim C5: exact-duplicate elimination (refuted in general, holds
for the two-file tree) -/

/-- C5 counterexample.  The claim quantifies over every pair of input files
with identical content, name and size.  Take the pair `s1/a.txt` and
`s2/a.txt`, both `"X"`: with a third same-named file of a different size
(`a.txt` = `"ZZ"`) reaching the bucket first, both members of the pair take
the size-mismatch rename branch (which never hashes against other slots),
both survive as `a_1.txt` and `a_2.txt`, and neither is deleted — two
copies of that content remain in the bucket. -/
theorem claim5_counterexample :
    (organize_by_extension [] true
        [(["a.txt"], "ZZ"), (["s1", "a.txt"], "X"), (["s2", "a.txt"], "X")]).1 =
      [(["Extension_TXT", "a.txt"], "ZZ"), (["Extension_TXT", "a_1.txt"], "X"),
        (["Extension_TXT", "a_2.txt"], "X")] ∧
    Ev.dupRemoved ["s1", "a.txt"] ∉
      (organize_by_extension [] true
        [(["a.txt"], "ZZ"), (["s1", "a.txt"], "X"), (["s2", "a.txt"], "X")]).2.1 ∧
    Ev.dupRemoved ["s2", "a.txt"] ∉
      (organize_by_extension [] true
        [(["a.txt"], "ZZ"), (["s1", "a.txt"], "X"), (["s2", "a.txt"], "X")]).2.1 := by
  refine ⟨rfl, ?_, ?_⟩ <;> decide

/-- C5 amended: on an input tree consisting of exactly two files with the
same name and identical content (hence identical size), in distinct
`Extension_*`-free directories, a run moves one into the bucket and removes
the other as an exact duplicate: exactly one copy of that content survives,
at the bucket path. -/
theorem claim5_theorem (d1 d2 : Path) (fn c : String)
    (h1 : extFreeDirs d1 = true) (h2 : extFreeDirs d2 = true)
    (hne : d1 ≠ d2)
    (hh : strStartsWith fn "." = false)
    (hext : extOf fn ≠ "UNKNOWN") :
    organize_by_extension [] true [(d1 ++ [fn], c), (d2 ++ [fn], c)] =
      ([(["Extension_" ++ extOf fn, fn], c)],
        [Ev.started, Ev.hashed (d1 ++ [fn]),
          Ev.moved (d1 ++ [fn]) ["Extension_" ++ extOf fn, fn],
          Ev.hashed (d2 ++ [fn]), Ev.hashed ["Extension_" ++ extOf fn, fn],
          Ev.dupRemoved (d2 ++ [fn]), Ev.doneMsg], none) := by
  have hxE : strStartsWith ("Extension_" ++ extOf fn) "Extension_" = true :=
    startsWith_self_append "Extension_" (extOf fn)
  have hp21 : d2 ++ [fn] ≠ d1 ++ [fn] := fun hx => hne (List.append_cancel_right hx).symm
  have hb21 : ((d2 ++ [fn] : Path) == d1 ++ [fn]) = false := beq_eq_false_iff_ne.mpr hp21
  have hpre1 : (("Extension_" ++ extOf fn) :: [fn]).isPrefixOf (d1 ++ [fn]) = false :=
    isPrefixOf_extHead_false h1 hxE (by simp)
  have hpre2 : (("Extension_" ++ extOf fn) :: [fn]).isPrefixOf (d2 ++ [fn]) = false :=
    isPrefixOf_extHead_false h2 hxE (by simp)
  have hdne : (["Extension_" ++ extOf fn, fn] : Path) ≠ d2 ++ [fn] := by
    intro hx
    rw [hx] at hpre2
    have hrefl : ((d2 ++ [fn]).isPrefixOf (d2 ++ [fn])) = true :=
      List.isPrefixOf_iff_prefix.mpr (List.prefix_refl _)
    rw [hrefl] at hpre2
    cases hpre2
  have hlk1 : lookupF [(d1 ++ [fn], c), (d2 ++ [fn], c)] (d1 ++ [fn]) = some c := by
    unfold lookupF
    rw [List.find?_cons_of_pos _ (by simp)]
    rfl
  have hfree1 : pathExists [(d1 ++ [fn], c), (d2 ++ [fn], c)]
      ["Extension_" ++ extOf fn, fn] = false := by
    unfold pathExists
    simp only [List.any_cons, List.any_nil, Bool.or_false]
    rw [show (["Extension_" ++ extOf fn, fn] : Path) =
      ("Extension_" ++ extOf fn) :: [fn] from rfl]
    rw [hpre1, hpre2]
    rfl
  have hstep1 := processFile_move [] [(d1 ++ [fn], c), (d2 ++ [fn], c)] d1 fn c hh hext hlk1
    (List.not_mem_nil _) hfree1
  have hrm1 : removeF [(d1 ++ [fn], c), (d2 ++ [fn], c)] (d1 ++ [fn]) = [(d2 ++ [fn], c)] := by
    unfold removeF
    simp [List.filter_cons, hb21]
  rw [hrm1] at hstep1
  have hlk2 : lookupF [(d2 ++ [fn], c), (["Extension_" ++ extOf fn, fn], c)]
      (d2 ++ [fn]) = some c := by
    unfold lookupF
    rw [List.find?_cons_of_pos _ (by simp)]
    rfl
  have hlkd : lookupF [(d2 ++ [fn], c), (["Extension_" ++ extOf fn, fn], c)]
      ["Extension_" ++ extOf fn, fn] = some c := by
    unfold lookupF
    rw [List.find?_cons_of_neg _ (by
      simp only [beq_iff_eq]
      exact fun hx => hdne hx.symm)]
    rw [List.find?_cons_of_pos _ (by simp)]
    rfl
  have hstep2 := processFile_dup [] [(d2 ++ [fn], c), (["Extension_" ++ extOf fn, fn], c)]
    d2 fn c hh hext hlk2 (List.not_mem_nil _) hlkd (List.not_mem_nil _)
  have hrm2 : removeF [(d2 ++ [fn], c), (["Extension_" ++ extOf fn, fn], c)] (d2 ++ [fn]) =
      [(["Extension_" ++ extOf fn, fn], c)] := by
    unfold removeF
    have hbd : ((["Extension_" ++ extOf fn, fn] : Path) == d2 ++ [fn]) = false :=
      beq_eq_false_iff_ne.mpr hdne
    simp [List.filter_cons, hbd]
  rw [hrm2] at hstep2
  have hwalk : walkList [(d1 ++ [fn], c), (d2 ++ [fn], c)] = [d1 ++ [fn], d2 ++ [fn]] := by
    unfold walkList
    simp [List.filter_cons, List.dropLast_concat, h1, h2]
  have hpp1 : processPath [] [(d1 ++ [fn], c), (d2 ++ [fn], c)] (d1 ++ [fn]) =
      processFile [] [(d1 ++ [fn], c), (d2 ++ [fn], c)] d1 fn := by
    unfold processPath
    rw [List.dropLast_concat, List.getLastD_concat]
  have hpp2 : processPath [] [(d2 ++ [fn], c), (["Extension_" ++ extOf fn, fn], c)]
      (d2 ++ [fn]) =
      processFile [] [(d2 ++ [fn], c), (["Extension_" ++ extOf fn, fn], c)] d2 fn := by
    unfold processPath
    rw [List.dropLast_concat, List.getLastD_concat]
  have hrun : runFiles [] [d1 ++ [fn], d2 ++ [fn]] [(d1 ++ [fn], c), (d2 ++ [fn], c)] =
      ([(["Extension_" ++ extOf fn, fn], c)],
        [Ev.hashed (d1 ++ [fn]), Ev.moved (d1 ++ [fn]) ["Extension_" ++ extOf fn, fn],
          Ev.hashed (d2 ++ [fn]), Ev.hashed ["Extension_" ++ extOf fn, fn],
          Ev.dupRemoved (d2 ++ [fn])], none) := by
    simp only [runFiles, hpp1, hstep1, List.singleton_append, hpp2, hstep2,
      List.append_nil, List.cons_append, List.nil_append]
  simp [organize_by_extension, hwalk, hrun]

/-- Witness for C5 at `a.txt` and `sub/a.txt`, both `"X"`. -/
theorem claim5_witness :
    (extFreeDirs [] = true ∧ extFreeDirs ["sub"] = true ∧
      ([] : Path) ≠ ["sub"] ∧
      strStartsWith "a.txt" "." = false ∧ extOf "a.txt" ≠ "UNKNOWN") ∧
    organize_by_extension [] true [([] ++ ["a.txt"], "X"), (["sub"] ++ ["a.txt"], "X")] =
      ([(["Extension_" ++ extOf "a.txt", "a.txt"], "X")],
        [Ev.started, Ev.hashed ([] ++ ["a.txt"]),
          Ev.moved ([] ++ ["a.txt"]) ["Extension_" ++ extOf "a.txt", "a.txt"],
          Ev.hashed (["sub"] ++ ["a.txt"]),
          Ev.hashed ["Extension_" ++ extOf "a.txt", "a.txt"],
          Ev.dupRemoved (["sub"] ++ ["a.txt"]), Ev.doneMsg], none) :=
  ⟨⟨by decide, by decide, by decide, by decide, by decide⟩,
    claim5_theorem [] ["sub"] "a.txt" "X"
      (by decide) (by decide) (by decide) (by decide) (by decide)⟩


/-! ### Towards idempotence: shapes of filesystem states during a run -/

/-- A path none of whose components starts with `Extension_` — the shape of
every path of a tree that has not been organized, and of every source path
the pruned walk can yield. -/
def Clean (p : Path) : Prop := ∀ s ∈ p, strStartsWith s "Extension_" = false

/-- Filenames the loop body skips without reading the filesystem at all
(lines 42-54): hidden names and names mapping to the `UNKNOWN` sentinel. -/
def SkipName (fn : String) : Bool :=
  strStartsWith fn "." || (extOf fn == "UNKNOWN")

/-- The shape of every path the organizer creates: directly in a bucket, or
in the quarantine tree one bucket deep. -/
def Placed (p : Path) : Prop :=
  (∃ x y, p = ["Extension_" ++ x, y]) ∨
  (∃ x y, p = ["Extension_EXISTING", "Extension_" ++ x, y])

theorem extFreeDirs_iff_clean {p : Path} : extFreeDirs p = true ↔ Clean p := by
  unfold extFreeDirs Clean
  rw [List.all_eq_true]
  constructor
  · intro h s hs
    have := h s hs
    simpa using this
  · intro h s hs
    simp [h s hs]

theorem clean_dropLast {p : Path} (h : Clean p) : extFreeDirs p.dropLast = true := by
  rw [extFreeDirs_iff_clean]
  intro s hs
  exact h s (List.dropLast_sublist p |>.mem hs)

theorem placed_not_clean {p : Path} (h : Placed p) : ¬ Clean p := by
  intro hcl
  rcases h with ⟨x, y, hf⟩ | ⟨x, y, hf⟩
  · have := hcl ("Extension_" ++ x) (by rw [hf]; simp)
    rw [startsWith_self_append] at this
    cases this
  · have := hcl "Extension_EXISTING" (by rw [hf]; simp)
    rw [show strStartsWith "Extension_EXISTING" "Extension_" = true by decide] at this
    cases this

theorem pathExists_false_ne {fs : FS} {q : Path} (h : pathExists fs q = false) :
    ∀ e ∈ fs, e.1 ≠ q := by
  intro e he hx
  unfold pathExists at h
  rw [List.any_eq_false] at h
  have := h e he
  rw [← hx] at this
  exact this (List.isPrefixOf_iff_prefix.mpr (List.prefix_refl _))

/-- Probe safety for the bucket destination `[x, fn]`: in a state whose
paths are all clean or placed, if the destination exists then it exists as
a regular file, so lines 75-76 can read it. -/
theorem probe_dest (fs : FS) (fn : String) (hfn : strStartsWith fn "Extension_" = false)
    (hsplit : ∀ e ∈ fs, Clean e.1 ∨ Placed e.1) (x : String)
    (hx : strStartsWith x "Extension_" = true)
    (hex : pathExists fs [x, fn] = true) :
    ∃ v, lookupF fs [x, fn] = some v := by
  unfold pathExists at hex
  rw [List.any_eq_true] at hex
  obtain ⟨e, he, hpref⟩ := hex
  rw [List.isPrefixOf_iff_prefix] at hpref
  obtain ⟨t, ht⟩ := hpref
  rcases hsplit e he with hcl | hpl
  · exfalso
    have hxmem : x ∈ e.1 := by rw [← ht]; simp
    have := hcl x hxmem
    rw [hx] at this
    cases this
  · rcases hpl with ⟨x2, y, hf⟩ | ⟨x1, y, hf⟩
    · rw [hf] at ht
      injection ht with h1 ht2
      injection ht2 with h2 h3
      have hfe : e.1 = [x, fn] := by rw [hf, h1, h2]
      have he2 : (e.1, e.2) ∈ fs := by simpa using he
      rw [hfe] at he2
      exact mem_lookupF he2
    · exfalso
      rw [hf] at ht
      injection ht with h1 ht2
      injection ht2 with h2 h3
      have : strStartsWith fn "Extension_" = true := by
        rw [h2]
        exact startsWith_self_append _ _
      rw [hfn] at this
      cases this

/-- Probe safety for quarantine slots `[Extension_EXISTING, x1, s]`. -/
theorem probe_quar (fs : FS) (hsplit : ∀ e ∈ fs, Clean e.1 ∨ Placed e.1) (x1 s : String)
    (hex : pathExists fs ["Extension_EXISTING", x1, s] = true) :
    ∃ v, lookupF fs ["Extension_EXISTING", x1, s] = some v := by
  unfold pathExists at hex
  rw [List.any_eq_true] at hex
  obtain ⟨e, he, hpref⟩ := hex
  rw [List.isPrefixOf_iff_prefix] at hpref
  obtain ⟨t, ht⟩ := hpref
  rcases hsplit e he with hcl | hpl
  · exfalso
    have hmem : "Extension_EXISTING" ∈ e.1 := by rw [← ht]; simp
    have := hcl "Extension_EXISTING" hmem
    rw [show strStartsWith "Extension_EXISTING" "Extension_" = true by decide] at this
    cases this
  · rcases hpl with ⟨x2, y, hf⟩ | ⟨x2, y, hf⟩
    · exfalso
      have hlen := congrArg List.length ht
      rw [hf] at hlen
      simp at hlen
    · rw [hf] at ht
      injection ht with h1 ht2
      injection ht2 with h2 ht3
      injection ht3 with h3 h4
      have hfe : e.1 = ["Extension_EXISTING", x1, s] := by rw [hf, h2, h3]
      have he2 : (e.1, e.2) ∈ fs := by simpa using he
      rw [hfe] at he2
      exact mem_lookupF he2

/-- A skipped filename produces no effect at all (lines 42-54 touch no
state). -/
theorem processFile_skip (errs : List Path) (fs : FS) (root : Path) (fn : String)
    (h : SkipName fn = true) :
    processFile errs fs root fn = .ok (fs, .skippedHidden, []) ∨
    processFile errs fs root fn = .ok (fs, .skippedNoExt, []) := by
  unfold SkipName at h
  rw [Bool.or_eq_true] at h
  by_cases hh : strStartsWith fn "." = true
  · left
    unfold processFile
    rw [hh]
    simp
  · right
    have hu : (extOf fn == "UNKNOWN") = true := by
      rcases h with h | h
      · exact absurd h hh
      · exact h
    unfold processFile
    rw [Bool.not_eq_true] at hh
    rw [hh]
    simp only [Bool.false_eq_true, if_false]
    rw [hu]
    simp


/-- Case 2 (lines 79-87): destination exists with a different size; the
file is renamed into the first free slot. -/
theorem processFile_rename (errs : List Path) (fs : FS) (root : Path) (fn : String)
    (c d : String)
    (hh : strStartsWith fn "." = false)
    (hext : extOf fn ≠ "UNKNOWN")
    (hc : lookupF fs (root ++ [fn]) = some c)
    (he1 : (root ++ [fn]) ∉ errs)
    (hd : lookupF fs ["Extension_" ++ extOf fn, fn] = some d)
    (he2 : (["Extension_" ++ extOf fn, fn] : Path) ∉ errs)
    (hsz : c.length ≠ d.length) :
    processFile errs fs root fn =
      .ok (removeF fs (root ++ [fn]) ++
          [(["Extension_" ++ extOf fn,
             slotName (splitext fn).1 (extOf fn)
               (findFree fs ["Extension_" ++ extOf fn] (splitext fn).1 (extOf fn))], c)],
        .renamedTo ["Extension_" ++ extOf fn,
          slotName (splitext fn).1 (extOf fn)
            (findFree fs ["Extension_" ++ extOf fn] (splitext fn).1 (extOf fn))],
        [Ev.hashed (root ++ [fn]), Ev.hashed ["Extension_" ++ extOf fn, fn],
          Ev.renamedMoved (root ++ [fn])
            ["Extension_" ++ extOf fn,
              slotName (splitext fn).1 (extOf fn)
                (findFree fs ["Extension_" ++ extOf fn] (splitext fn).1 (extOf fn))]]) := by
  have hb : (extOf fn == "UNKNOWN") = false := beq_eq_false_iff_ne.mpr hext
  have hex : pathExists fs (["Extension_" ++ extOf fn] ++ [fn]) = true := by
    simpa using lookupF_pathExists hd
  unfold processFile
  rw [hh]
  simp only [Bool.false_eq_true, if_false]
  rw [hb]
  simp only [Bool.false_eq_true, if_false]
  rw [hc]
  simp only [hex, Bool.not_true, Bool.false_eq_true, if_false]
  rw [show lookupF fs (["Extension_" ++ extOf fn] ++ [fn]) = some d by simpa using hd]
  simp only [List.singleton_append]
  simp [he1, he2, hsz]

/-- Case 4a (lines 96-102): same size, different content, quarantine slot
for the original name free; the file moves there. -/
theorem processFile_quarMove (errs : List Path) (fs : FS) (root : Path) (fn : String)
    (c d : String)
    (hh : strStartsWith fn "." = false)
    (hext : extOf fn ≠ "UNKNOWN")
    (hc : lookupF fs (root ++ [fn]) = some c)
    (he1 : (root ++ [fn]) ∉ errs)
    (hd : lookupF fs ["Extension_" ++ extOf fn, fn] = some d)
    (he2 : (["Extension_" ++ extOf fn, fn] : Path) ∉ errs)
    (hsz : c.length = d.length)
    (hne : (c == d) = false)
    (hqfree : pathExists fs ["Extension_EXISTING", "Extension_" ++ extOf fn, fn] = false) :
    processFile errs fs root fn =
      .ok (removeF fs (root ++ [fn]) ++
          [(["Extension_EXISTING", "Extension_" ++ extOf fn, fn], c)],
        .quarMovedTo ["Extension_EXISTING", "Extension_" ++ extOf fn, fn],
        [Ev.hashed (root ++ [fn]), Ev.hashed ["Extension_" ++ extOf fn, fn],
          Ev.quarMoved (root ++ [fn]) ["Extension_EXISTING", "Extension_" ++ extOf fn, fn]]) := by
  have hb : (extOf fn == "UNKNOWN") = false := beq_eq_false_iff_ne.mpr hext
  have hex : pathExists fs (["Extension_" ++ extOf fn] ++ [fn]) = true := by
    simpa using lookupF_pathExists hd
  unfold processFile
  rw [hh]
  simp only [Bool.false_eq_true, if_false]
  rw [hb]
  simp only [Bool.false_eq_true, if_false]
  rw [hc]
  simp only [hex, Bool.not_true, Bool.false_eq_true, if_false]
  rw [show lookupF fs (["Extension_" ++ extOf fn] ++ [fn]) = some d by simpa using hd]
  simp only [List.cons_append, List.nil_append] at hqfree ⊢
  simp [he1, he2, hsz, hne, hqfree]

/-- Case 4b (lines 103-121): same size, different content, quarantine slot
for the original name occupied; the slot scan decides. -/
theorem processFile_quarScan (errs : List Path) (fs : FS) (root : Path) (fn : String)
    (c d : String) (fs2 : FS) (a2 : Action) (evs2 : List Ev)
    (hh : strStartsWith fn "." = false)
    (hext : extOf fn ≠ "UNKNOWN")
    (hc : lookupF fs (root ++ [fn]) = some c)
    (he1 : (root ++ [fn]) ∉ errs)
    (hd : lookupF fs ["Extension_" ++ extOf fn, fn] = some d)
    (he2 : (["Extension_" ++ extOf fn, fn] : Path) ∉ errs)
    (hsz : c.length = d.length)
    (hne : (c == d) = false)
    (hqex : pathExists fs ["Extension_EXISTING", "Extension_" ++ extOf fn, fn] = true)
    (hr : quarScan errs fs (root ++ [fn]) c ["Extension_EXISTING", "Extension_" ++ extOf fn]
        (splitext fn).1 (extOf fn) (fs.length + 1) 1 = .ok (fs2, a2, evs2)) :
    processFile errs fs root fn =
      .ok (fs2, a2, Ev.hashed (root ++ [fn]) :: Ev.hashed ["Extension_" ++ extOf fn, fn] :: evs2) := by
  have hb : (extOf fn == "UNKNOWN") = false := beq_eq_false_iff_ne.mpr hext
  have hex : pathExists fs (["Extension_" ++ extOf fn] ++ [fn]) = true := by
    simpa using lookupF_pathExists hd
  unfold processFile
  rw [hh]
  simp only [Bool.false_eq_true, if_false]
  rw [hb]
  simp only [Bool.false_eq_true, if_false]
  rw [hc]
  simp only [hex, Bool.not_true, Bool.false_eq_true, if_false]
  rw [show lookupF fs (["Extension_" ++ extOf fn] ++ [fn]) = some d by simpa using hd]
  simp only [List.cons_append, List.nil_append] at hqex ⊢
  simp [he1, he2, hsz, hne, hqex, hr]


/-- Totality and state shape of the loop body on a readable non-skipped
file, in a state whose destination probes are safe: processing succeeds
(no exception), and the new state either re-places the file at a fresh
bucket or quarantine path holding its content, or removes it. -/
theorem processFile_ok_cases (fs : FS) (root : Path) (fn : String) (c : String)
    (hh : strStartsWith fn "." = false)
    (hext : extOf fn ≠ "UNKNOWN")
    (hc : lookupF fs (root ++ [fn]) = some c)
    (hprobeA : pathExists fs ["Extension_" ++ extOf fn, fn] = true →
      ∃ v, lookupF fs ["Extension_" ++ extOf fn, fn] = some v)
    (hprobeB : ∀ k, pathExists fs (["Extension_EXISTING", "Extension_" ++ extOf fn] ++
        [slotName (splitext fn).1 (extOf fn) k]) = true →
      ∃ v, lookupF fs (["Extension_EXISTING", "Extension_" ++ extOf fn] ++
        [slotName (splitext fn).1 (extOf fn) k]) = some v) :
    ∃ fs1 a evs, processFile [] fs root fn = .ok (fs1, a, evs) ∧
      ((∃ q, fs1 = removeF fs (root ++ [fn]) ++ [(q, c)] ∧ pathExists fs q = false ∧
          ((∃ y, q = ["Extension_" ++ extOf fn, y]) ∨
            (∃ y, q = ["Extension_EXISTING", "Extension_" ++ extOf fn, y]))) ∨
        fs1 = removeF fs (root ++ [fn])) := by
  by_cases hex : pathExists fs ["Extension_" ++ extOf fn, fn] = true
  · obtain ⟨d, hd⟩ := hprobeA hex
    by_cases hsz : c.length ≠ d.length
    · exact ⟨_, _, _, processFile_rename [] fs root fn c d hh hext hc (List.not_mem_nil _)
        hd (List.not_mem_nil _) hsz,
        Or.inl ⟨_, rfl, by simpa using (findFree_spec fs ["Extension_" ++ extOf fn]
          (splitext fn).1 (extOf fn)).2.1, Or.inl ⟨_, rfl⟩⟩⟩
    · have hsz2 : c.length = d.length := by omega
      by_cases heq : (c == d) = true
      · have hd2 : lookupF fs ["Extension_" ++ extOf fn, fn] = some c := by
          rw [beq_iff_eq.mp heq]
          exact hd
        exact ⟨_, _, _, processFile_dup [] fs root fn c hh hext hc (List.not_mem_nil _)
          hd2 (List.not_mem_nil _), Or.inr rfl⟩
      · have hne : (c == d) = false := by
          cases hcd : (c == d) with
          | false => rfl
          | true => exact absurd hcd heq
        by_cases hqex :
            pathExists fs ["Extension_EXISTING", "Extension_" ++ extOf fn, fn] = true
        · have hwin : ∃ n, 1 ≤ n ∧ n < 1 + (fs.length + 1) ∧
              pathExists fs (["Extension_EXISTING", "Extension_" ++ extOf fn] ++
                [slotName (splitext fn).1 (extOf fn) n]) = false := by
            obtain ⟨n, h1, h2, h3⟩ := exists_unoccupied fs
              ["Extension_EXISTING", "Extension_" ++ extOf fn] (splitext fn).1 (extOf fn) 1
            exact ⟨n, h1, by omega, h3⟩
          obtain ⟨r, hr⟩ := quarScan_ok fs (root ++ [fn]) c
            ["Extension_EXISTING", "Extension_" ++ extOf fn] (splitext fn).1 (extOf fn)
            hprobeB (fs.length + 1) 1 hwin
          obtain ⟨fs2, a2, evs2⟩ := r
          refine ⟨_, _, _, processFile_quarScan [] fs root fn c d fs2 a2 evs2 hh hext hc
            (List.not_mem_nil _) hd (List.not_mem_nil _) hsz2 hne hqex hr, ?_⟩
          rcases quarScan_ok_shape [] fs (root ++ [fn]) c
              ["Extension_EXISTING", "Extension_" ++ extOf fn] (splitext fn).1 (extOf fn)
              (fs.length + 1) 1 fs2 a2 evs2 hr with
            ⟨k, _, _, hfree, hfs2⟩ | ⟨k, _, _, _, hfs2⟩
          · exact Or.inl ⟨_, hfs2, hfree, Or.inr ⟨_, rfl⟩⟩
          · exact Or.inr hfs2
        · have hqfree :
              pathExists fs ["Extension_EXISTING", "Extension_" ++ extOf fn, fn] = false := by
            cases hb2 : pathExists fs ["Extension_EXISTING", "Extension_" ++ extOf fn, fn] with
            | false => rfl
            | true => exact absurd hb2 hqex
          exact ⟨_, _, _, processFile_quarMove [] fs root fn c d hh hext hc (List.not_mem_nil _)
            hd (List.not_mem_nil _) hsz2 hne hqfree,
            Or.inl ⟨_, rfl, hqfree, Or.inr ⟨_, rfl⟩⟩⟩
  · have hfree : pathExists fs ["Extension_" ++ extOf fn, fn] = false := by
      cases hb2 : pathExists fs ["Extension_" ++ extOf fn, fn] with
      | false => rfl
      | true => exact absurd hb2 hex
    exact ⟨_, _, _, processFile_move [] fs root fn c hh hext hc (List.not_mem_nil _) hfree,
      Or.inl ⟨_, rfl, hfree, Or.inl ⟨_, rfl⟩⟩⟩


/-- The invariant threaded through a run over a tree that starts clean:
`ps` are the walk entries still pending, `fs` the current state. -/
structure Inv (ps : List Path) (fs : FS) : Prop where
  nodup : (fs.map (fun e => e.1)).Nodup
  pendNodup : ps.Nodup
  pendClean : ∀ p ∈ ps, Clean p
  pendMem : ∀ p ∈ ps, ∃ c, (p, c) ∈ fs
  fsplit : ∀ e ∈ fs, Clean e.1 ∨ Placed e.1
  cleanDone : ∀ e ∈ fs, Clean e.1 → e.1 ∉ ps → SkipName (e.1.getLastD "") = true

theorem step_inv (p : Path) (ps : List Path) (fs : FS) (hinv : Inv (p :: ps) fs) :
    ∃ fs1 a evs, processPath [] fs p = .ok (fs1, a, evs) ∧ Inv ps fs1 := by
  have hpmem : p ∈ p :: ps := List.mem_cons_self p ps
  obtain ⟨c, hcmem⟩ := hinv.pendMem p hpmem
  have hc : lookupF fs p = some c := lookupF_eq_of_mem_nodup hinv.nodup hcmem
  have hpclean : Clean p := hinv.pendClean p hpmem
  have hptail : p ∉ ps := (List.nodup_cons.mp hinv.pendNodup).1
  by_cases hskip : SkipName (p.getLastD "") = true
  · have hinv2 : Inv ps fs :=
      { nodup := hinv.nodup
        pendNodup := (List.nodup_cons.mp hinv.pendNodup).2
        pendClean := fun q hq => hinv.pendClean q (List.mem_cons_of_mem p hq)
        pendMem := fun q hq => hinv.pendMem q (List.mem_cons_of_mem p hq)
        fsplit := hinv.fsplit
        cleanDone := by
          intro e he hcl hne
          by_cases hep : e.1 = p
          · rw [hep]
            exact hskip
          · exact hinv.cleanDone e he hcl (by
              intro hmem
              rcases List.mem_cons.mp hmem with h1 | h2
              · exact hep h1
              · exact hne h2) }
    rcases processFile_skip [] fs p.dropLast (p.getLastD "") hskip with h | h
    · exact ⟨fs, _, _, h, hinv2⟩
    · exact ⟨fs, _, _, h, hinv2⟩
  · have hsk : SkipName (p.getLastD "") = false := by
      cases hb : SkipName (p.getLastD "") with
      | false => rfl
      | true => exact absurd hb hskip
    have hsk2 : (strStartsWith (p.getLastD "") "." ||
        (extOf (p.getLastD "") == "UNKNOWN")) = false := hsk
    have hboth := Bool.or_eq_false_iff.mp hsk2
    have hh : strStartsWith (p.getLastD "") "." = false := hboth.1
    have hext : extOf (p.getLastD "") ≠ "UNKNOWN" := by
      intro hx
      have h2 := hboth.2
      rw [hx] at h2
      simp at h2
    have hpne : p ≠ [] := by
      intro h0
      rw [h0] at hsk
      have hT : SkipName (([] : Path).getLastD "") = true := by decide
      rw [hT] at hsk
      cases hsk
    have hfull : p.dropLast ++ [p.getLastD ""] = p := concat_of_ne_nil hpne
    have hfnmem : p.getLastD "" ∈ p := by
      rw [← hfull]
      simp
    have hfnclean : strStartsWith (p.getLastD "") "Extension_" = false := hpclean _ hfnmem
    have hprobeA : pathExists fs ["Extension_" ++ extOf (p.getLastD ""), p.getLastD ""] = true →
        ∃ v, lookupF fs ["Extension_" ++ extOf (p.getLastD ""), p.getLastD ""] = some v :=
      fun hexx => probe_dest fs (p.getLastD "") hfnclean hinv.fsplit
        ("Extension_" ++ extOf (p.getLastD "")) (startsWith_self_append _ _) hexx
    have hprobeB : ∀ k, pathExists fs
          (["Extension_EXISTING", "Extension_" ++ extOf (p.getLastD "")] ++
            [slotName (splitext (p.getLastD "")).1 (extOf (p.getLastD "")) k]) = true →
        ∃ v, lookupF fs (["Extension_EXISTING", "Extension_" ++ extOf (p.getLastD "")] ++
          [slotName (splitext (p.getLastD "")).1 (extOf (p.getLastD "")) k]) = some v :=
      fun k hexx => probe_quar fs hinv.fsplit ("Extension_" ++ extOf (p.getLastD ""))
        (slotName (splitext (p.getLastD "")).1 (extOf (p.getLastD "")) k) hexx
    obtain ⟨fs1, a, evs, hpf, hshape⟩ := processFile_ok_cases fs p.dropLast (p.getLastD "") c
      hh hext (by rw [hfull]; exact hc) hprobeA hprobeB
    rw [hfull] at hshape
    refine ⟨fs1, a, evs, hpf, ?_⟩
    have hrem_nodup : ((removeF fs p).map (fun e => e.1)).Nodup :=
      hinv.nodup.sublist ((List.filter_sublist fs).map _)
    have hpend2 : ∀ q ∈ ps, ∃ cq, (q, cq) ∈ removeF fs p := by
      intro q hq
      obtain ⟨cq, hcq⟩ := hinv.pendMem q (List.mem_cons_of_mem p hq)
      exact ⟨cq, mem_removeF hcq (show q ≠ p from fun hx => hptail (hx ▸ hq))⟩
    rcases hshape with ⟨q, hfs1, hqfree, hqshape⟩ | hfs1
    · have hqplaced : Placed q := by
        rcases hqshape with ⟨y, hy⟩ | ⟨y, hy⟩
        · exact Or.inl ⟨extOf (p.getLastD ""), y, hy⟩
        · exact Or.inr ⟨extOf (p.getLastD ""), y, hy⟩
      have hqnew : ∀ e ∈ removeF fs p, e.1 ≠ q :=
        fun e he => pathExists_false_ne hqfree e (removeF_subset e he)
      exact
        { nodup := by
            rw [hfs1, List.map_append]
            rw [List.nodup_append]
            refine ⟨hrem_nodup, by simp, ?_⟩
            intro x hx
            rw [List.mem_map] at hx
            obtain ⟨e, he, hxe⟩ := hx
            simp only [List.map_cons, List.map_nil, List.mem_singleton]
            intro hxq
            exact hqnew e he (by rw [← hxe] at hxq; exact hxq)
          pendNodup := (List.nodup_cons.mp hinv.pendNodup).2
          pendClean := fun q2 hq2 => hinv.pendClean q2 (List.mem_cons_of_mem p hq2)
          pendMem := by
            intro q2 hq2
            obtain ⟨cq, hcq⟩ := hpend2 q2 hq2
            exact ⟨cq, by rw [hfs1]; exact List.mem_append_left _ hcq⟩
          fsplit := by
            intro e he
            rw [hfs1] at he
            rcases List.mem_append.mp he with h1 | h2
            · exact hinv.fsplit e (removeF_subset e h1)
            · rw [List.mem_singleton] at h2
              rw [h2]
              exact Or.inr hqplaced
          cleanDone := by
            intro e he hcl hne
            rw [hfs1] at he
            rcases List.mem_append.mp he with h1 | h2
            · refine hinv.cleanDone e (removeF_subset e h1) hcl ?_
              intro hmem
              rcases List.mem_cons.mp hmem with hx | hx
              · exact removeF_ne e h1 hx
              · exact hne hx
            · exfalso
              rw [List.mem_singleton] at h2
              rw [h2] at hcl
              exact placed_not_clean hqplaced hcl }
    · exact
        { nodup := by rw [hfs1]; exact hrem_nodup
          pendNodup := (List.nodup_cons.mp hinv.pendNodup).2
          pendClean := fun q2 hq2 => hinv.pendClean q2 (List.mem_cons_of_mem p hq2)
          pendMem := by
            intro q2 hq2
            obtain ⟨cq, hcq⟩ := hpend2 q2 hq2
            exact ⟨cq, by rw [hfs1]; exact hcq⟩
          fsplit := by
            intro e he
            rw [hfs1] at he
            exact hinv.fsplit e (removeF_subset e he)
          cleanDone := by
            intro e he hcl hne
            rw [hfs1] at he
            refine hinv.cleanDone e (removeF_subset e he) hcl ?_
            intro hmem
            rcases List.mem_cons.mp hmem with hx | hx
            · exact removeF_ne e he hx
            · exact hne hx }


theorem runFiles_inv : ∀ (ps : List Path) (fs : FS), Inv ps fs →
    ∃ fs1 evs, runFiles [] ps fs = (fs1, evs, none) ∧ Inv [] fs1 := by
  intro ps
  induction ps with
  | nil => exact fun fs hinv => ⟨fs, [], rfl, hinv⟩
  | cons p ps ih =>
    intro fs hinv
    obtain ⟨fs1, a, evs, hpp, hinv1⟩ := step_inv p ps fs hinv
    obtain ⟨fs2, evs2, hrun, hinv2⟩ := ih fs1 hinv1
    refine ⟨fs2, evs ++ evs2, ?_, hinv2⟩
    simp only [runFiles, hpp, hrun]

theorem runFiles_skips : ∀ (ps : List Path) (fs : FS),
    (∀ p ∈ ps, SkipName (p.getLastD "") = true) → runFiles [] ps fs = (fs, [], none) := by
  intro ps
  induction ps with
  | nil => exact fun fs _ => rfl
  | cons p ps ih =>
    intro fs h
    have hrest := ih fs (fun q hq => h q (List.mem_cons_of_mem p hq))
    rcases processFile_skip [] fs p.dropLast (p.getLastD "")
        (h p (List.mem_cons_self p ps)) with hs | hs
    · show runFiles [] (p :: ps) fs = (fs, [], none)
      have hpp : processPath [] fs p = .ok (fs, .skippedHidden, []) := hs
      simp only [runFiles, hpp, hrest, List.nil_append]
    · show runFiles [] (p :: ps) fs = (fs, [], none)
      have hpp : processPath [] fs p = .ok (fs, .skippedNoExt, []) := hs
      simp only [runFiles, hpp, hrest, List.nil_append]

theorem walkList_skips (fs1 : FS) (hinv : Inv [] fs1) :
    ∀ p ∈ walkList fs1, SkipName (p.getLastD "") = true := by
  intro p hp
  unfold walkList at hp
  rw [List.mem_map] at hp
  obtain ⟨e, hef, hpe⟩ := hp
  rw [List.mem_filter] at hef
  obtain ⟨hemem, hecond⟩ := hef
  rcases hinv.fsplit e hemem with hcl | hpl
  · rw [← hpe]
    exact hinv.cleanDone e hemem hcl (List.not_mem_nil _)
  · exfalso
    rcases hpl with ⟨x, y, hf⟩ | ⟨x, y, hf⟩
    · rw [hf] at hecond
      simp [extFreeDirs, startsWith_self_append] at hecond
    · have hsE : strStartsWith "Extension_EXISTING" "Extension_" = true := by decide
      rw [hf] at hecond
      simp [extFreeDirs, hsE] at hecond

theorem initial_inv (fs : FS) (hnd : (fs.map (fun e => e.1)).Nodup)
    (hclean : ∀ e ∈ fs, Clean e.1) : Inv (walkList fs) fs :=
  { nodup := hnd
    pendNodup := by
      unfold walkList
      exact hnd.sublist ((List.filter_sublist fs).map _)
    pendClean := by
      intro p hp
      unfold walkList at hp
      rw [List.mem_map] at hp
      obtain ⟨e, hef, hpe⟩ := hp
      rw [List.mem_filter] at hef
      rw [← hpe]
      exact hclean e hef.1
    pendMem := by
      intro p hp
      unfold walkList at hp
      rw [List.mem_map] at hp
      obtain ⟨e, hef, hpe⟩ := hp
      rw [List.mem_filter] at hef
      exact ⟨e.2, by rw [← hpe]; simpa using hef.1⟩
    fsplit := fun e he => Or.inl (hclean e he)
    cleanDone := by
      intro e he hcl hne
      exfalso
      apply hne
      unfold walkList
      rw [List.mem_map]
      exact ⟨e, List.mem_filter.mpr ⟨he, clean_dropLast hcl⟩, rfl⟩ }

/-! ### Claim C9: a second run changes nothing -/

/-- C9: on a tree with well-formed distinct paths, none of which lies under
(or carries) an `Extension_*` component, the first run finishes without an
exception, and running the organizer again on the resulting tree performs
no filesystem change and no action at all: the second run emits only the
start and completion messages.  Every moved file sits under an
`Extension_*` directory, which the walk prunes, and every file left in
place is one the loop body skips by name alone. -/
theorem claim9_theorem (fs : FS)
    (hnd : (fs.map (fun e => e.1)).Nodup)
    (hclean : ∀ e ∈ fs, Clean e.1) :
    (organize_by_extension [] true fs).2.2 = none ∧
    organize_by_extension [] true ((organize_by_extension [] true fs).1) =
      ((organize_by_extension [] true fs).1, [Ev.started, Ev.doneMsg], none) := by
  obtain ⟨fs1, evs, hrun, hinv1⟩ := runFiles_inv (walkList fs) fs (initial_inv fs hnd hclean)
  have h1 : organize_by_extension [] true fs = (fs1, Ev.started :: evs ++ [Ev.doneMsg], none) := by
    unfold organize_by_extension
    simp [hrun]
  have hrun2 := runFiles_skips (walkList fs1) fs1 (walkList_skips fs1 hinv1)
  have h2 : organize_by_extension [] true fs1 = (fs1, [Ev.started, Ev.doneMsg], none) := by
    unfold organize_by_extension
    simp [hrun2]
  rw [h1]
  exact ⟨rfl, h2⟩

/-- Witness for C9 on a small clean tree (a bucketed file, a skipped
dotless name, a hidden file, and a nested duplicate). -/
theorem claim9_witness :
    (([(["a.txt"], "X"), (["notes"], "N"), ([".hid"], "H"), (["sub", "a.txt"], "X")] : FS).map
        (fun e => e.1)).Nodup ∧
    (∀ e ∈ ([(["a.txt"], "X"), (["notes"], "N"), ([".hid"], "H"),
        (["sub", "a.txt"], "X")] : FS), Clean e.1) ∧
    (organize_by_extension [] true
        [(["a.txt"], "X"), (["notes"], "N"), ([".hid"], "H"), (["sub", "a.txt"], "X")]).2.2 =
      none ∧
    organize_by_extension [] true
        ((organize_by_extension [] true
          [(["a.txt"], "X"), (["notes"], "N"), ([".hid"], "H"), (["sub", "a.txt"], "X")]).1) =
      ((organize_by_extension [] true
          [(["a.txt"], "X"), (["notes"], "N"), ([".hid"], "H"), (["sub", "a.txt"], "X")]).1,
        [Ev.started, Ev.doneMsg], none) := by
  have hcl : ∀ e ∈ ([(["a.txt"], "X"), (["notes"], "N"), ([".hid"], "H"),
      (["sub", "a.txt"], "X")] : FS), Clean e.1 := by
    intro e he
    rw [← extFreeDirs_iff_clean]
    fin_cases he <;> decide
  refine ⟨by decide, hcl, ?_, ?_⟩
  · exact (claim9_theorem
      [(["a.txt"], "X"), (["notes"], "N"), ([".hid"], "H"), (["sub", "a.txt"], "X")]
      (by decide) hcl).1
  · exact (claim9_theorem
      [(["a.txt"], "X"), (["notes"], "N"), ([".hid"], "H"), (["sub", "a.txt"], "X")]
      (by decide) hcl).2

end OrgSpec










